import Mathlib

/-!
Verification of the rust-tab editing engine: the rational Duration model
(src/dur.rs), the document model and measure derivation (src/song.rs), the
cursor navigation/mutation operations (src/cursor.rs), and the bounded
undo/redo history (src/history.rs), shallowly embedded in Lean.

Machine integers (u16/usize) are modelled as Nat.  Rust `saturating_sub`
coincides with Nat subtraction.  A Rust panic (Duration::new with a zero
denominator, or the unreachable gcd-scan failure) is modelled by `none` in
the Option-valued `Duration.new?`; the total wrapper `durNew` returns the
junk value ⟨0, 0⟩ on that path and is only used where the surrounding
hypotheses keep the panic path unreachable.
-/

namespace Tab

/-- `Duration(pub u16, pub u16)` from src/dur.rs: numerator and denominator
of a fraction of a whole note. -/
structure Duration where
  num : Nat
  den : Nat
  deriving Repr, DecidableEq

/-- The divisor scan inside `Duration::new` / `new_checked`
(src/dur.rs lines 17-21 and 34-38): `for i in (1..=min(num,den)).rev()`,
returning the first (largest) `i` dividing both inputs. -/
def scanGCD (num den : Nat) : Nat → Option Nat
  | 0 => none
  | i + 1 =>
    if num % (i + 1) = 0 ∧ den % (i + 1) = 0 then some (i + 1)
    else scanGCD num den i

/-- Error taxonomy from src/error.rs (the variants reachable from the
Duration code): `ParseError(String)` and `InvalidOp(String)`. -/
inductive Err where
  | parseFail (msg : String)
  | invalidOp (msg : String)
  deriving Repr, DecidableEq

/-- `Duration::new_checked` (src/dur.rs lines 9-24). -/
def Duration.new_checked (num den : Nat) : Except Err Duration :=
  if den = 0 then .error (.invalidOp "Duration with 0 denominator")
  else if num = 0 then .ok ⟨0, 1⟩
  else if den = 1 ∨ num = 1 then .ok ⟨num, den⟩
  else
    match scanGCD num den (min num den) with
    | some i => .ok ⟨num / i, den / i⟩
    | none => .error (.invalidOp "Cannot find GCD")

/-- `Duration::new` (src/dur.rs lines 26-41), which panics on a zero
denominator and on a failed divisor scan; a panic is modelled as `none`. -/
def Duration.new? (num den : Nat) : Option Duration :=
  if den = 0 then none
  else if num = 0 then some ⟨0, 1⟩
  else if den = 1 ∨ num = 1 then some ⟨num, den⟩
  else
    match scanGCD num den (min num den) with
    | some i => some ⟨num / i, den / i⟩
    | none => none

/-- Total wrapper for `Duration::new`: identical to `Duration.new?` away
from the panic path, junk ⟨0,0⟩ on it.  Used in contexts where hypotheses
(nonzero denominators) keep the panic path unreachable. -/
def durNew (num den : Nat) : Duration :=
  (Duration.new? num den).getD ⟨0, 0⟩

/-- `impl Add for Duration` (src/dur.rs lines 164-170). -/
def durAdd (a b : Duration) : Duration :=
  durNew (a.num * b.den + b.num * a.den) (a.den * b.den)

/-- `impl Sub for Duration` (src/dur.rs lines 172-181); `saturating_sub`
is Nat subtraction. -/
def durSub (a b : Duration) : Duration :=
  durNew (a.num * b.den - b.num * a.den) (a.den * b.den)

/-- `impl Mul<u16> for Duration` (src/dur.rs lines 183-189). -/
def durMul (a : Duration) (k : Nat) : Duration :=
  durNew (a.num * k) a.den

/-- `impl Div<u16> for Duration` (src/dur.rs lines 191-197). -/
def durDiv (a : Duration) (k : Nat) : Duration :=
  durNew a.num (a.den * k)

/-- `Duration::dotted` (src/dur.rs lines 55-57). -/
def durDotted (a : Duration) : Duration :=
  durNew (a.num * 3) (a.den * 2)

/-- `impl PartialEq for Duration` (src/dur.rs lines 223-231):
same-denominator fast path, otherwise cross multiplication. -/
def durBEq (a b : Duration) : Bool :=
  if a.den = b.den then a.num == b.num
  else a.num * b.den == b.num * a.den

/-- `impl Ord for Duration` (src/dur.rs lines 211-221). -/
def durCmp (a b : Duration) : Ordering :=
  if a.den = b.den then compare a.num b.num
  else compare (a.num * b.den) (b.num * a.den)

/-- `a > b` on Durations, via `Ord::cmp` (as used in `update_measures`). -/
def durGtB (a b : Duration) : Bool :=
  durCmp a b == .gt

/-- The exact rational value of a stored Duration. -/
def durVal (d : Duration) : ℚ :=
  (d.num : ℚ) / (d.den : ℚ)

/-! ### Reduction lemmas: the divisor scan computes the gcd -/

theorem scanGCD_eq_gcd (num den : Nat) (hn : 1 ≤ num) :
    ∀ k, Nat.gcd num den ≤ k → scanGCD num den k = some (Nat.gcd num den) := by
  have hgpos : 0 < Nat.gcd num den := Nat.gcd_pos_of_pos_left den (by omega)
  intro k
  induction k with
  | zero => intro h; omega
  | succ i ih =>
    intro h
    by_cases hg : Nat.gcd num den = i + 1
    · have h1 : num % (i + 1) = 0 := by
        rw [← hg]
        exact Nat.mod_eq_zero_of_dvd (Nat.gcd_dvd_left num den)
      have h2 : den % (i + 1) = 0 := by
        rw [← hg]
        exact Nat.mod_eq_zero_of_dvd (Nat.gcd_dvd_right num den)
      rw [scanGCD, if_pos ⟨h1, h2⟩, hg]
    · have hle : Nat.gcd num den ≤ i := by omega
      have hcond : ¬(num % (i + 1) = 0 ∧ den % (i + 1) = 0) := by
        rintro ⟨h1, h2⟩
        have d1 : (i + 1) ∣ num := Nat.dvd_of_mod_eq_zero h1
        have d2 : (i + 1) ∣ den := Nat.dvd_of_mod_eq_zero h2
        have : i + 1 ≤ Nat.gcd num den := Nat.le_of_dvd hgpos (Nat.dvd_gcd d1 d2)
        omega
      rw [scanGCD, if_neg hcond]
      exact ih hle

/-- Away from the (unreachable) panic path, `Duration::new` reduces its
argument by the greatest common divisor. -/
theorem durNew_eq (n d : Nat) (hd : d ≠ 0) :
    durNew n d = ⟨n / Nat.gcd n d, d / Nat.gcd n d⟩ := by
  have hdpos : 0 < d := Nat.pos_of_ne_zero hd
  unfold durNew Duration.new?
  rw [if_neg hd]
  by_cases hn : n = 0
  · subst hn
    rw [if_pos rfl]
    simp [Nat.gcd_zero_left, Nat.div_self hdpos]
  · rw [if_neg hn]
    by_cases h1 : d = 1 ∨ n = 1
    · rw [if_pos h1]
      rcases h1 with h1 | h1 <;> subst h1 <;>
        simp [Nat.gcd_one_right, Nat.gcd_one_left]
    · rw [if_neg h1]
      have hnpos : 0 < n := Nat.pos_of_ne_zero hn
      have hgle : Nat.gcd n d ≤ min n d :=
        le_min (Nat.le_of_dvd hnpos (Nat.gcd_dvd_left n d))
          (Nat.le_of_dvd hdpos (Nat.gcd_dvd_right n d))
      rw [scanGCD_eq_gcd n d hnpos (min n d) hgle]
      rfl

theorem durNew_den_ne (n d : Nat) (hd : d ≠ 0) : (durNew n d).den ≠ 0 := by
  rw [durNew_eq n d hd]
  have hdpos : 0 < d := Nat.pos_of_ne_zero hd
  have hg : 0 < Nat.gcd n d := Nat.gcd_pos_of_pos_right n hdpos
  exact (Nat.div_pos (Nat.le_of_dvd hdpos (Nat.gcd_dvd_right n d)) hg).ne'

theorem durVal_durNew (n d : Nat) (hd : d ≠ 0) :
    durVal (durNew n d) = (n : ℚ) / (d : ℚ) := by
  have hdpos : 0 < d := Nat.pos_of_ne_zero hd
  have hg : 0 < Nat.gcd n d := Nat.gcd_pos_of_pos_right n hdpos
  obtain ⟨a, ha⟩ := Nat.gcd_dvd_left n d
  obtain ⟨b, hb⟩ := Nat.gcd_dvd_right n d
  rw [durNew_eq n d hd]
  unfold durVal
  have hdg : 0 < d / Nat.gcd n d :=
    Nat.div_pos (Nat.le_of_dvd hdpos ⟨b, hb⟩) hg
  have hgQ : (Nat.gcd n d : ℚ) ≠ 0 := by exact_mod_cast hg.ne'
  rw [div_eq_div_iff (by exact_mod_cast hdg.ne') (by exact_mod_cast hd)]
  rw [Nat.cast_div ⟨a, ha⟩ hgQ, Nat.cast_div ⟨b, hb⟩ hgQ]
  ring

/-! ### Value semantics of the arithmetic and comparison operations -/

theorem durAdd_den_ne (a b : Duration) (ha : a.den ≠ 0) (hb : b.den ≠ 0) :
    (durAdd a b).den ≠ 0 :=
  durNew_den_ne _ _ (mul_ne_zero ha hb)

theorem durVal_durAdd (a b : Duration) (ha : a.den ≠ 0) (hb : b.den ≠ 0) :
    durVal (durAdd a b) = durVal a + durVal b := by
  have haQ : (a.den : ℚ) ≠ 0 := by exact_mod_cast ha
  have hbQ : (b.den : ℚ) ≠ 0 := by exact_mod_cast hb
  unfold durAdd
  rw [durVal_durNew _ _ (mul_ne_zero ha hb)]
  unfold durVal
  push_cast
  field_simp

theorem durSub_den_ne (a b : Duration) (ha : a.den ≠ 0) (hb : b.den ≠ 0) :
    (durSub a b).den ≠ 0 :=
  durNew_den_ne _ _ (mul_ne_zero ha hb)

theorem durVal_durSub (a b : Duration) (ha : a.den ≠ 0) (hb : b.den ≠ 0)
    (hle : durVal b ≤ durVal a) :
    durVal (durSub a b) = durVal a - durVal b := by
  have haQ : (a.den : ℚ) ≠ 0 := by exact_mod_cast ha
  have hbQ : (b.den : ℚ) ≠ 0 := by exact_mod_cast hb
  have hapos : (0 : ℚ) < a.den := by positivity
  have hbpos : (0 : ℚ) < b.den := by
    have := Nat.pos_of_ne_zero hb
    exact_mod_cast this
  have hcross : b.num * a.den ≤ a.num * b.den := by
    have := (div_le_div_iff hbpos hapos).mp hle
    exact_mod_cast this
  unfold durSub
  rw [durVal_durNew _ _ (mul_ne_zero ha hb)]
  unfold durVal
  rw [Nat.cast_sub hcross]
  push_cast
  field_simp
  ring

/-- `a - a` lands exactly on the stored zero duration `(0, 1)`. -/
theorem durSub_self (a : Duration) (ha : a.den ≠ 0) :
    durSub a a = ⟨0, 1⟩ := by
  unfold durSub
  rw [Nat.sub_self]
  unfold durNew Duration.new?
  rw [if_neg (mul_ne_zero ha ha), if_pos rfl]
  rfl

theorem durBEq_iff (a b : Duration) (ha : a.den ≠ 0) (hb : b.den ≠ 0) :
    durBEq a b = true ↔ durVal a = durVal b := by
  have haQ : (a.den : ℚ) ≠ 0 := by exact_mod_cast ha
  have hbQ : (b.den : ℚ) ≠ 0 := by exact_mod_cast hb
  unfold durBEq durVal
  rw [div_eq_div_iff haQ hbQ]
  by_cases h : a.den = b.den
  · rw [if_pos h, h]
    constructor
    · intro he
      have : a.num = b.num := by simpa using he
      rw [this]
    · intro he
      have : a.num = b.num := by
        have h2 := mul_right_cancel₀ hbQ he
        exact_mod_cast h2
      simp [this]
  · rw [if_neg h]
    constructor
    · intro he
      have : a.num * b.den = b.num * a.den := by simpa using he
      exact_mod_cast this
    · intro he
      have : a.num * b.den = b.num * a.den := by exact_mod_cast he
      simp [this]

theorem ordBeqGt_iff (o : Ordering) : (o == Ordering.gt) = true ↔ o = Ordering.gt := by
  cases o <;> decide

theorem durGtB_iff (a b : Duration) (ha : a.den ≠ 0) (hb : b.den ≠ 0) :
    durGtB a b = true ↔ durVal b < durVal a := by
  have hapos : (0 : ℚ) < a.den := by
    have := Nat.pos_of_ne_zero ha
    exact_mod_cast this
  have hbpos : (0 : ℚ) < b.den := by
    have := Nat.pos_of_ne_zero hb
    exact_mod_cast this
  unfold durGtB durCmp durVal
  rw [div_lt_div_iff hbpos hapos]
  by_cases h : a.den = b.den
  · rw [if_pos h, h, ordBeqGt_iff, Nat.compare_eq_gt]
    constructor
    · intro hlt
      have hQ : (b.num : ℚ) < a.num := by exact_mod_cast hlt
      exact mul_lt_mul_of_pos_right hQ hbpos
    · intro hlt
      have hQ : (b.num : ℚ) < (a.num : ℚ) :=
        lt_of_mul_lt_mul_right hlt (le_of_lt hbpos)
      exact_mod_cast hQ
  · rw [if_neg h, ordBeqGt_iff, Nat.compare_eq_gt]
    constructor
    · intro hlt
      exact_mod_cast hlt
    · intro hlt
      exact_mod_cast hlt

/-! ### The document model (src/song.rs) -/

/-- `Note` (src/song.rs lines 7-12): a fretted value or the muted marker. -/
inductive Note where
  | fret (n : Nat)
  | x
  deriving Repr, DecidableEq

/-- `Beat` (src/song.rs lines 26-30): a Duration plus per-string notes. -/
structure Beat where
  dur : Duration
  notes : List (Nat × Note)
  deriving Repr, DecidableEq

/-- The measure length `mlen = Duration::new(1, 1)` of `update_measures`. -/
def mlen : Duration := durNew 1 1

theorem mlen_eq : mlen = ⟨1, 1⟩ := rfl

theorem durVal_mlen : durVal mlen = 1 := by
  rw [mlen_eq]
  unfold durVal
  norm_num

/-- The loop body of `Track::update_measures` (src/song.rs lines 99-116),
threading the running total. -/
def update_measures_go (total : Duration) : List Beat → List Bool
  | [] => []
  | b :: rest =>
    if durBEq total mlen then
      true :: update_measures_go (durAdd (durNew 0 1) b.dur) rest
    else if durGtB total mlen then
      false :: update_measures_go (durAdd (durSub total mlen) b.dur) rest
    else
      false :: update_measures_go (durAdd total b.dur) rest

/-- `Track::update_measures` as a function from the Beats sequence to the
derived measure index; the running total starts at `Duration::new(1, 1)`. -/
def update_measures (beats : List Beat) : List Bool :=
  update_measures_go (durNew 1 1) beats

/-- The same recurrence as the code, but over exact rationals: a beat is
marked exactly when the running total equals one whole note. -/
def measuresQ (t : ℚ) : List ℚ → List Bool
  | [] => []
  | d :: rest =>
    if t = 1 then true :: measuresQ (0 + d) rest
    else if 1 < t then false :: measuresQ (t - 1 + d) rest
    else false :: measuresQ (t + d) rest

/-- The claim wording over exact rationals: a beat is marked whenever the
running total has reached OR EXCEEDED one whole note, and the total resets
to the overflow remainder. -/
def claimMeasuresQ (t : ℚ) : List ℚ → List Bool
  | [] => []
  | d :: rest =>
    if 1 ≤ t then true :: claimMeasuresQ (t - 1 + d) rest
    else false :: claimMeasuresQ (t + d) rest

/-- The stored-fraction computation of `update_measures` tracks the exact
rational recurrence. -/
theorem update_measures_go_eq (beats : List Beat) :
    ∀ total : Duration, total.den ≠ 0 → (∀ b ∈ beats, b.dur.den ≠ 0) →
      update_measures_go total beats
        = measuresQ (durVal total) (beats.map fun b => durVal b.dur) := by
  induction beats with
  | nil => intro total _ _; rfl
  | cons b rest ih =>
    intro total ht hall
    have hb : b.dur.den ≠ 0 := hall b (List.mem_cons_self b rest)
    have hrest : ∀ x ∈ rest, x.dur.den ≠ 0 := fun x hx =>
      hall x (List.mem_cons_of_mem b hx)
    have hml : mlen.den ≠ 0 := by rw [mlen_eq]; exact one_ne_zero
    have hzden : (durNew 0 1).den ≠ 0 := durNew_den_ne 0 1 one_ne_zero
    simp only [List.map_cons]
    rw [update_measures_go, measuresQ]
    by_cases he : durBEq total mlen = true
    · have hv1 : durVal total = 1 := by
        have h2 := (durBEq_iff total mlen ht hml).mp he
        rw [h2, durVal_mlen]
      rw [if_pos he, if_pos hv1]
      congr 1
      rw [ih (durAdd (durNew 0 1) b.dur) (durAdd_den_ne _ _ hzden hb) hrest]
      congr 1
      rw [durVal_durAdd _ _ hzden hb, durVal_durNew 0 1 one_ne_zero]
      norm_num
    · have hv1 : ¬durVal total = 1 := by
        intro hC
        apply he
        apply (durBEq_iff total mlen ht hml).mpr
        rw [hC, durVal_mlen]
      rw [if_neg he, if_neg hv1]
      by_cases hg : durGtB total mlen = true
      · have hvg : 1 < durVal total := by
          have h2 := (durGtB_iff total mlen ht hml).mp hg
          rwa [durVal_mlen] at h2
        rw [if_pos hg, if_pos hvg]
        congr 1
        have hsubden : (durSub total mlen).den ≠ 0 := durSub_den_ne _ _ ht hml
        rw [ih (durAdd (durSub total mlen) b.dur) (durAdd_den_ne _ _ hsubden hb) hrest]
        congr 1
        rw [durVal_durAdd _ _ hsubden hb,
          durVal_durSub total mlen ht hml (by rw [durVal_mlen]; exact hvg.le),
          durVal_mlen]
      · have hvg : ¬1 < durVal total := by
          intro hC
          apply hg
          apply (durGtB_iff total mlen ht hml).mpr
          rwa [durVal_mlen]
        rw [if_neg hg, if_neg hvg]
        congr 1
        rw [ih (durAdd total b.dur) (durAdd_den_ne _ _ ht hb) hrest]
        congr 1
        exact durVal_durAdd _ _ ht hb

/-- The example track of the measure-index claim:
durations 1/4, 1/4, 1/4, 1/4, 1/2, 1/2. -/
def exampleBeats : List Beat :=
  [⟨durNew 1 4, []⟩, ⟨durNew 1 4, []⟩, ⟨durNew 1 4, []⟩, ⟨durNew 1 4, []⟩,
   ⟨durNew 1 2, []⟩, ⟨durNew 1 2, []⟩]

/-- A track whose running total strictly overshoots a measure boundary:
durations 3/4, 1/2, 1/2. -/
def overflowBeats : List Beat :=
  [⟨durNew 3 4, []⟩, ⟨durNew 1 2, []⟩, ⟨durNew 1 2, []⟩]

theorem overflowBeats_vals :
    (overflowBeats.map fun b => durVal b.dur) = [3 / 4, 1 / 2, 1 / 2] := by
  norm_num [overflowBeats, durVal]
  norm_num [show durNew 3 4 = ⟨3, 4⟩ from rfl, show durNew 1 2 = ⟨1, 2⟩ from rfl]

/-- C1, counterexample: on the beat durations 3/4, 1/2, 1/2 the running
total strictly exceeds one whole note at beat 2; `update_measures` does
NOT mark that beat (it only marks on exact equality), while the claim's
reached-or-exceeded rule marks it. -/
theorem c1_counterexample :
    update_measures overflowBeats
        ≠ claimMeasuresQ 1 (overflowBeats.map fun b => durVal b.dur)
      ∧ update_measures overflowBeats = [true, false, false]
      ∧ claimMeasuresQ 1 (overflowBeats.map fun b => durVal b.dur)
          = [true, false, true] := by
  have h1 : update_measures overflowBeats = [true, false, false] := by decide
  have h2 : claimMeasuresQ 1 (overflowBeats.map fun b => durVal b.dur)
      = [true, false, true] := by
    rw [overflowBeats_vals]
    norm_num [claimMeasuresQ]
  refine ⟨?_, h1, h2⟩
  rw [h1, h2]
  decide

/-- C1 (amended): `update_measures` walks the beats accumulating their
exact rational Durations against a measure length of one whole note, with
the running total starting at one whole note; beat i is marked as a
measure start exactly when the running total EQUALS one whole note at
beat i (resetting the total to zero); when the total strictly exceeds one
whole note, one whole note is subtracted but the beat is not marked.  In
particular [1/4,1/4,1/4,1/4,1/2,1/2] marks exactly beats 0 and 4. -/
theorem c1_update_measures :
    (∀ beats : List Beat, (∀ b ∈ beats, b.dur.den ≠ 0) →
        update_measures beats = measuresQ 1 (beats.map fun b => durVal b.dur))
      ∧ update_measures exampleBeats = [true, false, false, false, true, false] := by
  constructor
  · intro beats h
    unfold update_measures
    rw [update_measures_go_eq beats (durNew 1 1) (durNew_den_ne 1 1 one_ne_zero) h]
    congr 1
    rw [durVal_durNew 1 1 one_ne_zero]
    norm_num
  · decide

/-- Witness for C1: the general statement applied to the concrete
overflowing track. -/
theorem c1_update_measures_witness :
    update_measures overflowBeats
      = measuresQ 1 (overflowBeats.map fun b => durVal b.dur) :=
  c1_update_measures.1 overflowBeats (by decide)

/-! ### Duration construction and arithmetic claims (C6, C7) -/

/-- Away from a zero denominator, `new_checked` succeeds with exactly the
value `Duration::new` would produce. -/
theorem new_checked_ok (n d : Nat) (hd : d ≠ 0) :
    Duration.new_checked n d = .ok (durNew n d) := by
  unfold Duration.new_checked durNew Duration.new?
  rw [if_neg hd, if_neg hd]
  by_cases hn : n = 0
  · rw [if_pos hn, if_pos hn]
    rfl
  · rw [if_neg hn, if_neg hn]
    by_cases h1 : d = 1 ∨ n = 1
    · rw [if_pos h1, if_pos h1]
      rfl
    · rw [if_neg h1, if_neg h1]
      have hnpos : 0 < n := Nat.pos_of_ne_zero hn
      have hdpos : 0 < d := Nat.pos_of_ne_zero hd
      have hgle : Nat.gcd n d ≤ min n d :=
        le_min (Nat.le_of_dvd hnpos (Nat.gcd_dvd_left n d))
          (Nat.le_of_dvd hdpos (Nat.gcd_dvd_right n d))
      rw [scanGCD_eq_gcd n d hnpos (min n d) hgle]
      rfl

theorem durNew_zero_num (d : Nat) (hd : d ≠ 0) : durNew 0 d = ⟨0, 1⟩ := by
  unfold durNew Duration.new?
  rw [if_neg hd, if_pos rfl]
  rfl

/-- C6: `new_checked` fails exactly on a zero denominator; on success a
zero numerator canonicalizes to (0,1) and the result is in lowest terms. -/
theorem c6_new_checked :
    ∀ num den : Nat,
      ((∃ r, Duration.new_checked num den = .ok r) ↔ den ≠ 0)
      ∧ (∀ r, Duration.new_checked num den = .ok r →
          (num = 0 → r = ⟨0, 1⟩) ∧ Nat.gcd r.num r.den = 1) := by
  intro num den
  by_cases hd : den = 0
  · subst hd
    constructor
    · constructor
      · rintro ⟨r, hr⟩
        unfold Duration.new_checked at hr
        simp at hr
      · intro h
        exact absurd rfl h
    · intro r hr
      unfold Duration.new_checked at hr
      simp at hr
  · constructor
    · exact ⟨fun _ => hd, fun _ => ⟨durNew num den, new_checked_ok num den hd⟩⟩
    · intro r hr
      rw [new_checked_ok num den hd] at hr
      injection hr with hr2
      subst hr2
      constructor
      · intro hn0
        subst hn0
        exact durNew_zero_num den hd
      · rw [durNew_eq num den hd]
        have hg : 0 < Nat.gcd num den :=
          Nat.gcd_pos_of_pos_right num (Nat.pos_of_ne_zero hd)
        exact Nat.coprime_div_gcd_div_gcd hg

/-- Witness for C6 at num = 6, den = 4 (reduced to 3/2). -/
theorem c6_new_checked_witness :
    (∃ r, Duration.new_checked 6 4 = .ok r)
      ∧ ((6 = 0 → (⟨3, 2⟩ : Duration) = ⟨0, 1⟩) ∧ Nat.gcd 3 2 = 1) :=
  ⟨((c6_new_checked 6 4).1).mpr (by decide),
    (c6_new_checked 6 4).2 ⟨3, 2⟩ (by rfl)⟩

/-- C7: subtraction saturates at zero, so `a - a` is the stored zero
duration (0,1); and `a + b - b == a` under the cross-multiplication
equality (in the Nat model the subtraction in `a + b - b` never
underflows, which is the regime the claim restricts itself to). -/
theorem c7_sub_laws :
    ∀ a b : Duration, a.den ≠ 0 → b.den ≠ 0 →
      durSub a a = ⟨0, 1⟩
      ∧ durBEq (durSub (durAdd a b) b) a = true := by
  intro a b ha hb
  refine ⟨durSub_self a ha, ?_⟩
  have hs : (durAdd a b).den ≠ 0 := durAdd_den_ne a b ha hb
  have h1 : durVal (durAdd a b) = durVal a + durVal b := durVal_durAdd a b ha hb
  have hle : durVal b ≤ durVal (durAdd a b) := by
    rw [h1]
    have h0 : 0 ≤ durVal a := by
      unfold durVal
      positivity
    linarith
  apply (durBEq_iff _ _ (durSub_den_ne _ _ hs hb) ha).mpr
  rw [durVal_durSub _ _ hs hb hle, h1]
  ring

/-- Witness for C7 at a = 1/4, b = 1/2. -/
theorem c7_sub_laws_witness :
    durSub ⟨1, 4⟩ ⟨1, 4⟩ = ⟨0, 1⟩
      ∧ durBEq (durSub (durAdd ⟨1, 4⟩ ⟨1, 2⟩) ⟨1, 2⟩) ⟨1, 4⟩ = true :=
  c7_sub_laws ⟨1, 4⟩ ⟨1, 2⟩ (by decide) (by decide)

/-! ### Duration parsing (src/dur.rs, `impl FromStr`) -/

/-- Leading decimal digits and the remainder (one `\d+` regex piece). -/
def takeDigits : List Char → List Char × List Char
  | [] => ([], [])
  | c :: rest =>
    if c.isDigit then
      let p := takeDigits rest
      (c :: p.1, p.2)
    else ([], c :: rest)

def digitsToNat (l : List Char) : Nat :=
  l.foldl (fun acc c => acc * 10 + (c.toNat - 48)) 0

/-- Tail of the duration grammar after `[count /] base [.]`: either the
end of input or `: tuplet` followed by the end. -/
def matchColon (count : Option (List Char)) (base : List Char) (dotted : Bool) :
    List Char → Option (Option (List Char) × List Char × Bool × Option (List Char))
  | [] => some (count, base, dotted, none)
  | ':' :: r =>
    let p := takeDigits r
    if p.1 = [] then none
    else if p.2 = [] then some (count, base, dotted, some p.1)
    else none
  | _ => none

/-- Optional dot after the base. -/
def matchDot (count : Option (List Char)) (base : List Char) :
    List Char → Option (Option (List Char) × List Char × Bool × Option (List Char))
  | '.' :: r => matchColon count base true r
  | r => matchColon count base false r

/-- The anchored regex `^(?:(\d+)/|)(\d+)(\.|)(?::(\d+)|)$` of
`FromStr for Duration` (src/dur.rs line 124), returning the captures
(count, base digits, dotted flag, tuplet digits). -/
def matchGrammar (cs : List Char) :
    Option (Option (List Char) × List Char × Bool × Option (List Char)) :=
  let p1 := takeDigits cs
  if p1.1 = [] then none
  else
    match p1.2 with
    | '/' :: r2 =>
      let p2 := takeDigits r2
      if p2.1 = [] then none
      else matchDot (some p1.1) p2.1 p2.2
    | r1 => matchDot none p1.1 r1

/-- `parse_match::<u16>` (src/dur.rs lines 126-137): converts an optional
capture to a number, failing with a ParseError when it overflows u16. -/
def parse_match_u16 : Option (List Char) → Except Err (Option Nat)
  | none => .ok none
  | some ds =>
    if digitsToNat ds < 65536 then .ok (some (digitsToNat ds))
    else .error (.parseFail "Unable to parse capture as value")

/-- Result of `Duration::from_str`: success, an error, or a panic (the
latter is reachable through `Duration::new` with a zero denominator). -/
inductive PResult where
  | ok (d : Duration)
  | err (e : Err)
  | crash
  deriving Repr, DecidableEq

/-- `impl FromStr for Duration` (src/dur.rs lines 119-162): match the
regex, convert the captures, build via `new_checked(1, base)` then apply
dotted, count and tuplet factors through the panicking `Duration::new`. -/
def from_str (s : String) : PResult :=
  match matchGrammar s.toList with
  | none => .err (.parseFail ("Unable to parse " ++ s ++ " as Duration"))
  | some (cnt, base, dotted, tup) =>
    match parse_match_u16 cnt with
    | .error e => .err e
    | .ok cntN =>
      match parse_match_u16 (some base) with
      | .error e => .err e
      | .ok none => .err (.parseFail ("Unable to parse " ++ s ++ " as Duration"))
      | .ok (some baseN) =>
        match parse_match_u16 tup with
        | .error e => .err e
        | .ok tupN =>
          match Duration.new_checked 1 baseN with
          | .error e => .err e
          | .ok d0 =>
            let step1 : Option Duration :=
              if dotted then Duration.new? (d0.num * 3) (d0.den * 2) else some d0
            let step2 : Option Duration :=
              step1.bind fun d =>
                match cntN with
                | some k => Duration.new? (d.num * k) d.den
                | none => some d
            let step3 : Option Duration :=
              step2.bind fun d =>
                match tupN with
                | some t =>
                  (Duration.new? d.num (d.den * t)).bind fun d2 =>
                    Duration.new? (d2.num * 2) d2.den
                | none => some d
            match step3 with
            | some d => .ok d
            | none => .crash

/-- C8: the concrete parsing round-trips: "4" is a quarter note, "4." a
dotted quarter (3/8), and a "3:8" triplet sums three copies to a quarter
note under the reduced-fraction equality. -/
theorem c8_parse_roundtrip :
    from_str "4" = .ok (durNew 1 4)
      ∧ from_str "4." = .ok (durNew 3 8)
      ∧ ∃ d, from_str "3:8" = .ok d
          ∧ durBEq (durAdd (durAdd d d) d) (durNew 1 4) = true := by
  exact ⟨rfl, rfl, ⟨⟨1, 12⟩, rfl, rfl⟩⟩

/-- C9, counterexample: `"3"` (base not a power of two) parses
successfully to 1/3 instead of failing, and `"4:0"` (zero tuplet) panics
through `Duration::new` with a zero denominator instead of returning a
parse error. -/
theorem c9_counterexample :
    from_str "3" = .ok ⟨1, 3⟩ ∧ from_str "4:0" = .crash :=
  ⟨rfl, rfl⟩

/-- C9 (amended): any text not matching the grammar yields a parse
error; a zero base fails with an invalid-operation error; a base that is
not a power of two is accepted (e.g. "3" parses to 1/3); and a zero
tuplet panics rather than returning an error. -/
theorem c9_parse_errors :
    (∀ s : String, matchGrammar s.toList = none →
        from_str s = .err (.parseFail ("Unable to parse " ++ s ++ " as Duration")))
      ∧ from_str "0" = .err (.invalidOp "Duration with 0 denominator")
      ∧ from_str "3" = .ok ⟨1, 3⟩
      ∧ from_str "4:0" = .crash := by
  refine ⟨?_, rfl, rfl, rfl⟩
  intro s h
  unfold from_str
  rw [h]

/-- Witness for C9 at the non-matching input "abc". -/
theorem c9_parse_errors_witness :
    from_str "abc" = .err (.parseFail ("Unable to parse " ++ "abc" ++ " as Duration")) :=
  c9_parse_errors.1 "abc" rfl

/-! ### History (src/history.rs) -/

/-- `History` (src/history.rs lines 90-94): a bounded deque (front of the
list = front of the VecDeque) plus the redo offset `future`.  The entry
type is a parameter (the source stores `Rc<Action>`). -/
structure History (α : Type) where
  size : Nat
  history : List α
  future : Nat
  deriving Repr, DecidableEq

/-- `History::new` (lines 97-103). -/
def History.new (α : Type) (size : Nat) : History α :=
  ⟨size, [], 0⟩

/-- `History::del_old` (lines 105-107): `pop_back`. -/
def History.del_old {α : Type} (h : History α) : History α :=
  { h with history := h.history.dropLast }

/-- `History::del_future` (lines 109-114): pop `future` front entries and
reset the offset. -/
def History.del_future {α : Type} (h : History α) : History α :=
  { h with history := h.history.drop h.future, future := 0 }

/-- `History::undo` (lines 121-125): read the entry at index `future`,
advancing the offset only on success. -/
def History.undo {α : Type} (h : History α) : Option α × History α :=
  match h.history[h.future]? with
  | none => (none, h)
  | some e => (some e, { h with future := h.future + 1 })

/-- `History::redo` (lines 116-119): `checked_sub` fails on `future = 0`
before any mutation; a subsequent `get` failure (unreachable from states
satisfying the `future ≤ len` invariant) happens after the decremented
`future` was already written back, so that branch returns the mutated
state. -/
def History.redo {α : Type} (h : History α) : Option α × History α :=
  match h.future with
  | 0 => (none, h)
  | f + 1 =>
    match h.history[f]? with
    | none => (none, { h with future := f })
    | some e => (some e, { h with future := f })

/-- `History::push` (lines 127-133). -/
def History.push {α : Type} (h : History α) (entry : α) : History α :=
  let h1 := h.del_future
  let h2 := if h1.history.length = h1.size then h1.del_old else h1
  { h2 with history := entry :: h2.history }

theorem take_append_take {α : Type} (n : Nat) (xs ys : List α) :
    (xs ++ ys.take n).take n = (xs ++ ys).take n := by
  rw [List.take_append_eq_append_take, List.take_append_eq_append_take,
    List.take_take]
  congr 2
  omega

/-- Normal form of one `push` on a within-capacity history with positive
capacity: keep the newest `size` entries of the front-extended queue. -/
theorem push_history_eq {α : Type} (h : History α) (a : α) (hs : 1 ≤ h.size)
    (hlen : h.history.length ≤ h.size) :
    (h.push a).history = (a :: h.history.drop h.future).take h.size
      ∧ (h.push a).future = 0 ∧ (h.push a).size = h.size := by
  obtain ⟨s, hsz⟩ : ∃ s, h.size = s + 1 := ⟨h.size - 1, by omega⟩
  unfold History.push History.del_future History.del_old
  simp only
  have hll : (h.history.drop h.future).length ≤ h.size := by
    rw [List.length_drop]
    omega
  by_cases hfull : (h.history.drop h.future).length = h.size
  · rw [if_pos hfull]
    refine ⟨?_, rfl, rfl⟩
    simp only
    rw [hsz, List.take_succ_cons, List.dropLast_eq_take,
      show (h.history.drop h.future).length - 1 = s by omega]
  · rw [if_neg hfull]
    refine ⟨?_, rfl, rfl⟩
    simp only
    rw [List.take_of_length_le]
    simp only [List.length_cons]
    omega

/-- Folding `push` over an action list: the history is the newest `size`
entries of the reversed list in front of the old queue. -/
theorem foldl_push_history {α : Type} (acts : List α) :
    ∀ h : History α, 1 ≤ h.size → h.future = 0 → h.history.length ≤ h.size →
      (acts.foldl History.push h).history = ((acts.reverse ++ h.history).take h.size)
        ∧ (acts.foldl History.push h).future = 0
        ∧ (acts.foldl History.push h).size = h.size := by
  induction acts with
  | nil =>
    intro h hs hf hl
    refine ⟨?_, hf, rfl⟩
    simp [List.take_of_length_le hl]
  | cons a as ih =>
    intro h hs hf hl
    simp only [List.foldl_cons]
    obtain ⟨h1, h2, h3⟩ := push_history_eq h a hs hl
    have hlen1 : (h.push a).history.length ≤ (h.push a).size := by
      rw [h1, h3]
      exact List.length_take_le _ _
    obtain ⟨g1, g2, g3⟩ := ih (h.push a) (by rw [h3]; exact hs) h2 hlen1
    refine ⟨?_, g2, by rw [g3, h3]⟩
    rw [g1, h1, h3, hf]
    simp only [List.drop_zero, List.reverse_cons]
    rw [take_append_take]
    congr 1
    simp

/-- C3: a push first discards the pending-redo front entries and resets
`future` to 0, evicting the back entry at capacity; pushing capacity + 1
actions from a fresh history keeps exactly the newest capacity entries
(the oldest is discarded); and one undo followed by a push discards the
entry that had become redoable. -/
theorem c3_push {α : Type} (cap : Nat) (hcap : 1 ≤ cap) :
    (∀ (h : History α) (a : α), h.size = cap → h.history.length ≤ cap →
        (h.push a).future = 0
          ∧ (h.push a).history = (a :: h.history.drop h.future).take cap)
      ∧ (∀ acts : List α, acts.length = cap + 1 →
          (acts.foldl History.push (History.new α cap)).history
              = (acts.drop 1).reverse
            ∧ (acts.foldl History.push (History.new α cap)).history.length = cap)
      ∧ (∀ (h : History α) (a e : α) (rest : List α), h.size = cap →
          h.future = 0 → h.history = e :: rest → h.history.length ≤ cap →
          ((h.undo).2.push a).history = a :: rest
            ∧ ((h.undo).2.push a).future = 0) := by
  refine ⟨?_, ?_, ?_⟩
  · intro h a hsz hl
    obtain ⟨h1, h2, _⟩ := push_history_eq h a (by omega) (by omega)
    rw [hsz] at h1
    exact ⟨h2, h1⟩
  · intro acts hlen
    obtain ⟨h1, _, _⟩ :=
      foldl_push_history acts (History.new α cap) hcap rfl (by simp [History.new])
    rw [show (History.new α cap).history = [] from rfl, List.append_nil,
      show (History.new α cap).size = cap from rfl] at h1
    cases acts with
    | nil => simp at hlen
    | cons x xs =>
      have hxl : xs.length = cap := by
        simp at hlen
        omega
      constructor
      · rw [h1, List.reverse_cons]
        rw [List.take_append_eq_append_take]
        rw [List.take_of_length_le (by rw [List.length_reverse, hxl])]
        rw [List.length_reverse, hxl, Nat.sub_self]
        simp
      · rw [h1, List.length_take]
        simp [hxl]
  · intro h a e rest hsz hf hh hl
    have hg : h.history[h.future]? = some e := by
      rw [hh, hf]
      simp
    have hu : (h.undo).2 = { h with future := 1 } := by
      unfold History.undo
      rw [hg, hf]
    rw [hu]
    have hlen2 : ({ h with future := 1 } : History α).history.length
        ≤ ({ h with future := 1 } : History α).size := by
      simp only
      omega
    obtain ⟨h1, h2, _⟩ :=
      push_history_eq ({ h with future := 1 }) a (by simp only; omega) hlen2
    refine ⟨?_, h2⟩
    rw [h1]
    simp only [hh, hsz, List.drop_succ_cons, List.drop_zero]
    rw [List.take_of_length_le]
    simp only [List.length_cons]
    rw [hh] at hl
    simp only [List.length_cons] at hl
    omega

/-- Witness for C3 at capacity 2 with three pushes and an undo-push. -/
theorem c3_push_witness :
    ((([10, 20, 30] : List Nat).foldl History.push (History.new Nat 2)).history
        = (([10, 20, 30] : List Nat).drop 1).reverse
      ∧ (([10, 20, 30] : List Nat).foldl History.push (History.new Nat 2)).history.length = 2)
    ∧ ((((⟨2, [5], 0⟩ : History Nat).undo).2.push 7).history = 7 :: []
      ∧ (((⟨2, [5], 0⟩ : History Nat).undo).2.push 7).future = 0) :=
  ⟨(c3_push 2 (by decide)).2.1 [10, 20, 30] (by decide),
    (c3_push 2 (by decide)).2.2 ⟨2, [5], 0⟩ 7 5 [] rfl rfl rfl (by decide)⟩

/-- C4: on every history satisfying the `future ≤ len` reachability
invariant (established by C10), `undo` fails exactly when `future` equals
the queue length and otherwise returns the entry at `future` and
increments it; `redo` fails exactly when `future = 0` and otherwise
decrements `future` and returns the entry at the new index; every failing
call leaves the state unchanged. -/
theorem c4_undo_redo {α : Type} :
    ∀ h : History α, h.future ≤ h.history.length →
      (((h.undo).1 = none ↔ h.future = h.history.length)
        ∧ ((h.undo).1 = none → (h.undo).2 = h)
        ∧ (h.future < h.history.length →
            (h.undo).1 = h.history[h.future]?
              ∧ (h.undo).2 = { h with future := h.future + 1 }))
      ∧ (((h.redo).1 = none ↔ h.future = 0)
        ∧ ((h.redo).1 = none → (h.redo).2 = h)
        ∧ (0 < h.future →
            (h.redo).1 = h.history[h.future - 1]?
              ∧ (h.redo).2 = { h with future := h.future - 1 })) := by
  intro h hinv
  constructor
  · by_cases hfl : h.future = h.history.length
    · have hnone : h.history[h.future]? = none := by
        rw [List.getElem?_eq_none_iff]
        omega
      have hu : h.undo = (none, h) := by
        unfold History.undo
        rw [hnone]
      rw [hu]
      exact ⟨⟨fun _ => hfl, fun _ => rfl⟩, fun _ => rfl, fun hlt => by omega⟩
    · have hlt : h.future < h.history.length := by omega
      have hsome : h.history[h.future]? = some (h.history[h.future]) :=
        List.getElem?_eq_getElem hlt
      have hu : h.undo
          = (some (h.history[h.future]), { h with future := h.future + 1 }) := by
        unfold History.undo
        rw [hsome]
      rw [hu]
      refine ⟨⟨fun hC => by simp at hC, fun hC => absurd hC hfl⟩,
        fun hC => by simp at hC, fun _ => ⟨by rw [hsome], rfl⟩⟩
  · rcases hf : h.future with _ | f
    · have hr : h.redo = (none, h) := by
        unfold History.redo
        rw [hf]
      rw [hr]
      exact ⟨⟨fun _ => rfl, fun _ => rfl⟩, fun _ => rfl, fun hlt => by omega⟩
    · have hlt : f < h.history.length := by omega
      have hsome : h.history[f]? = some (h.history[f]) :=
        List.getElem?_eq_getElem hlt
      have hr : h.redo = (some (h.history[f]), { h with future := f }) := by
        unfold History.redo
        rw [hf]
        show (match h.history[f]? with
          | none => ((none : Option α), { h with future := f })
          | some e => (some e, { h with future := f })) = _
        rw [hsome]
      rw [hr]
      refine ⟨⟨fun hC => by simp at hC, fun hC => by omega⟩,
        fun hC => by simp at hC, fun _ => ⟨?_, ?_⟩⟩
      · rw [Nat.add_sub_cancel, hsome]
      · rw [Nat.add_sub_cancel]

/-- Witness for C4 on the history ⟨size 3, [8, 9], future 1⟩. -/
theorem c4_undo_redo_witness :
    ((((⟨3, [8, 9], 1⟩ : History Nat).undo).1 = none ↔ 1 = 2)
      ∧ (((⟨3, [8, 9], 1⟩ : History Nat).undo).1 = none →
          ((⟨3, [8, 9], 1⟩ : History Nat).undo).2 = ⟨3, [8, 9], 1⟩)
      ∧ (1 < 2 →
          ((⟨3, [8, 9], 1⟩ : History Nat).undo).1 = ([8, 9] : List Nat)[1]?
            ∧ ((⟨3, [8, 9], 1⟩ : History Nat).undo).2 = ⟨3, [8, 9], 2⟩))
    ∧ ((((⟨3, [8, 9], 1⟩ : History Nat).redo).1 = none ↔ 1 = 0)
      ∧ (((⟨3, [8, 9], 1⟩ : History Nat).redo).1 = none →
          ((⟨3, [8, 9], 1⟩ : History Nat).redo).2 = ⟨3, [8, 9], 1⟩)
      ∧ (0 < 1 →
          ((⟨3, [8, 9], 1⟩ : History Nat).redo).1 = ([8, 9] : List Nat)[0]?
            ∧ ((⟨3, [8, 9], 1⟩ : History Nat).redo).2 = ⟨3, [8, 9], 0⟩)) :=
  c4_undo_redo (⟨3, [8, 9], 1⟩ : History Nat) (by decide)

/-- The operations a client can perform on a History. -/
inductive HOp (α : Type) where
  | push (a : α)
  | undo
  | redo

/-- One client call, as a state transition. -/
def hstep {α : Type} (h : History α) : HOp α → History α
  | .push a => h.push a
  | .undo => (h.undo).2
  | .redo => (h.redo).2

/-- A call sequence against a fresh `History::new(size)`. -/
def hrun (α : Type) (size : Nat) (ops : List (HOp α)) : History α :=
  ops.foldl hstep (History.new α size)

/-- The indexing invariant: `future` never exceeds the queue length and
the queue never exceeds the capacity. -/
def HistInv {α : Type} (h : History α) : Prop :=
  h.future ≤ h.history.length ∧ h.history.length ≤ h.size

theorem hstep_inv {α : Type} (h : History α) (op : HOp α) (hs : 1 ≤ h.size)
    (hinv : HistInv h) : HistInv (hstep h op) ∧ (hstep h op).size = h.size := by
  obtain ⟨h1, h2⟩ := hinv
  cases op with
  | push a =>
    show HistInv (h.push a) ∧ (h.push a).size = h.size
    obtain ⟨g1, g2, g3⟩ := push_history_eq h a hs h2
    refine ⟨⟨?_, ?_⟩, g3⟩
    · rw [g2]
      omega
    · rw [g1, List.length_take]
      omega
  | undo =>
    show HistInv (h.undo).2 ∧ (h.undo).2.size = h.size
    rcases hg : h.history[h.future]? with _ | e
    · have e1 : (h.undo).2 = h := by
        unfold History.undo
        rw [hg]
      rw [e1]
      exact ⟨⟨h1, h2⟩, rfl⟩
    · have hlt : h.future < h.history.length := by
        by_contra hC
        rw [List.getElem?_eq_none_iff.mpr (by omega)] at hg
        cases hg
      have e1 : (h.undo).2 = { h with future := h.future + 1 } := by
        unfold History.undo
        rw [hg]
      rw [e1]
      exact ⟨⟨by simp only; omega, h2⟩, rfl⟩
  | redo =>
    show HistInv (h.redo).2 ∧ (h.redo).2.size = h.size
    rcases hf : h.future with _ | f
    · have e1 : (h.redo).2 = h := by
        unfold History.redo
        rw [hf]
      rw [e1]
      exact ⟨⟨h1, h2⟩, rfl⟩
    · have e1 : (h.redo).2 = { h with future := f } := by
        unfold History.redo
        rw [hf]
        show (match h.history[f]? with
          | none => ((none : Option α), { h with future := f })
          | some e => (some e, { h with future := f })).2 = _
        rcases hg : h.history[f]? with _ | e <;> rfl
      rw [e1]
      exact ⟨⟨by simp only; omega, h2⟩, rfl⟩

/-- C10: starting from `History::new(size)` with `size ≥ 1`, every
sequence of push/undo/redo calls preserves `future ≤ len ≤ size`. -/
theorem c10_invariant {α : Type} (size : Nat) (hs : 1 ≤ size)
    (ops : List (HOp α)) :
    HistInv (hrun α size ops) ∧ (hrun α size ops).size = size := by
  unfold hrun
  suffices key : ∀ (l : List (HOp α)) (h : History α), 1 ≤ h.size → HistInv h →
      HistInv (l.foldl hstep h) ∧ (l.foldl hstep h).size = h.size by
    exact key ops (History.new α size) hs ⟨by simp [History.new], by simp [History.new]⟩
  intro l
  induction l with
  | nil => intro h _ hinv; exact ⟨hinv, rfl⟩
  | cons op rest ih =>
    intro h hs1 hinv
    rw [List.foldl_cons]
    obtain ⟨g1, g2⟩ := hstep_inv h op hs1 hinv
    obtain ⟨k1, k2⟩ := ih (hstep h op) (by omega) g1
    exact ⟨k1, by omega⟩

/-- Witness for C10 on a concrete capacity-1 run. -/
theorem c10_invariant_witness :
    HistInv (hrun Nat 1 [.push 4, .undo, .push 5, .redo])
      ∧ (hrun Nat 1 [.push 4, .undo, .push 5, .redo]).size = 1 :=
  c10_invariant 1 (by decide) [.push 4, .undo, .push 5, .redo]

/-! ### Track, Song, Cursor (src/song.rs, src/cursor.rs) -/

/-- `Track` (src/song.rs lines 82-88): string count, beats, and the
derived measure index. -/
structure Track where
  string_count : Nat
  beats : List Beat
  measure_i : List Bool
  deriving Repr, DecidableEq

/-- `Song` (src/song.rs lines 119-122). -/
structure Song where
  tracks : List Track
  deriving Repr, DecidableEq

/-- `Cursor` (src/cursor.rs lines 7-13). -/
structure Cursor where
  scroll : Nat
  track : Nat
  beat : Nat
  string : Nat
  deriving Repr, DecidableEq

/-- In-place update of one list element (a `&mut v[i]` access); out of
bounds it is the identity (the source would panic there, and every use
below carries an in-bounds hypothesis). -/
def listModify {α : Type} (f : α → α) : Nat → List α → List α
  | _, [] => []
  | 0, a :: as => f a :: as
  | n + 1, a :: as => a :: listModify f n as

/-- `Vec::insert` at an index (out of bounds: appends; the source panics
there, and every use below carries an in-bounds hypothesis). -/
def insertAt {α : Type} : Nat → α → List α → List α
  | 0, a, l => a :: l
  | _ + 1, a, [] => [a]
  | n + 1, a, x :: xs => x :: insertAt n a xs

/-- `Cursor::track` (src/cursor.rs lines 25-27): `&song.tracks[self.track]`. -/
def trackOf (s : Song) (c : Cursor) : Track :=
  s.tracks.getD c.track ⟨0, [], []⟩

/-- `Cursor::beats` (src/cursor.rs lines 33-35). -/
def beatsOf (s : Song) (c : Cursor) : List Beat :=
  (trackOf s c).beats

/-- `Cursor::track_mut` followed by a field update, as a Song transform. -/
def modifyTrack (s : Song) (i : Nat) (f : Track → Track) : Song :=
  ⟨listModify f i s.tracks⟩

/-- `Beat::copy_duration` (src/song.rs lines 40-42). -/
def Beat.copy_duration (b : Beat) : Beat :=
  ⟨b.dur, []⟩

/-- The auto-extension loop of `Cursor::seek_beat` (src/cursor.rs lines
82-84): `while new >= beats.len() { beats.push(beats.last().unwrap().copy_duration()) }`.
On an empty track the source unwrap panics; here the loop stops (all uses
carry a nonempty-track hypothesis). -/
def autoExtend (l : List Beat) (n : Nat) : List Beat :=
  if _h : n < l.length then l
  else
    match l.getLast? with
    | none => l
    | some b => autoExtend (l ++ [b.copy_duration]) n
  termination_by n + 1 - l.length
  decreasing_by
    simp only [List.length_append, List.length_cons, List.length_nil]
    omega

/-- `Cursor::scroll_to_cursor` (src/cursor.rs lines 123-130): slide the
window so the cursor is visible (two sequential conditional writes to
`scroll`). -/
def scroll_to_cursor (c : Cursor) (w : Nat) : Cursor :=
  let s1 := if c.beat < c.scroll then c.beat else c.scroll
  let s2 := if s1 + w - 1 < c.beat then c.beat - (w - 1) else s1
  { c with scroll := s2 }

/-- `Cursor::seek_beat` (src/cursor.rs lines 79-88): clamp the new index
at 0, auto-extend the beats, move the cursor, reconcile the scroll, then
recompute the measure index. -/
def seek_beat (s : Song) (c : Cursor) (dire : Int) (w : Nat) : Song × Cursor :=
  let new : Nat := ((c.beat : Int) + dire).toNat
  let beats1 := autoExtend (beatsOf s c) new
  let s1 := modifyTrack s c.track fun t => { t with beats := beats1 }
  let c1 := scroll_to_cursor { c with beat := new } w
  let s2 := modifyTrack s1 c.track fun t =>
    { t with measure_i := update_measures t.beats }
  (s2, c1)

theorem listModify_length {α : Type} (f : α → α) :
    ∀ (i : Nat) (l : List α), (listModify f i l).length = l.length := by
  intro i
  induction i with
  | zero =>
    intro l
    cases l <;> rfl
  | succ n ih =>
    intro l
    cases l with
    | nil => rfl
    | cons x xs =>
      simp only [listModify, List.length_cons, ih]

theorem listModify_getD {α : Type} (f : α → α) :
    ∀ (i : Nat) (l : List α) (d : α), i < l.length →
      (listModify f i l).getD i d = f (l.getD i d) := by
  intro i
  induction i with
  | zero =>
    intro l d hl
    cases l with
    | nil => simp at hl
    | cons x xs => rfl
  | succ n ih =>
    intro l d hl
    cases l with
    | nil => simp at hl
    | cons x xs =>
      simp only [listModify, List.getD_cons_succ]
      exact ih xs d (by simpa using hl)

theorem trackOf_modifyTrack (s : Song) (c : Cursor) (f : Track → Track)
    (ht : c.track < s.tracks.length) :
    trackOf (modifyTrack s c.track f) c = f (trackOf s c) := by
  unfold trackOf modifyTrack
  exact listModify_getD f c.track s.tracks _ ht

theorem modifyTrack_tracks_length (s : Song) (i : Nat) (f : Track → Track) :
    (modifyTrack s i f).tracks.length = s.tracks.length :=
  listModify_length f i s.tracks

/-- Unfolded form of the auto-extension loop: append `n + 1 - len` copies
of the last beat's duration with no notes. -/
theorem autoExtend_spec (k : Nat) :
    ∀ (l : List Beat) (n : Nat) (b : Beat), l.getLast? = some b →
      k = n + 1 - l.length →
      autoExtend l n = l ++ List.replicate k b.copy_duration := by
  induction k with
  | zero =>
    intro l n b _ hk
    rw [autoExtend, dif_pos (by omega)]
    simp
  | succ k ih =>
    intro l n b hl hk
    rw [autoExtend, dif_neg (by omega), hl]
    show autoExtend (l ++ [b.copy_duration]) n = _
    rw [ih (l ++ [b.copy_duration]) n b.copy_duration
      (by rw [List.getLast?_concat])
      (by simp only [List.length_append, List.length_cons, List.length_nil]; omega)]
    rw [List.append_assoc]
    congr 1

theorem autoExtend_of_lt (l : List Beat) (n : Nat) (h : n < l.length) :
    autoExtend l n = l := by
  rw [autoExtend, dif_pos h]

theorem scroll_to_cursor_spec (c : Cursor) (w : Nat) (hw : 1 ≤ w) :
    (scroll_to_cursor c w).beat = c.beat
      ∧ (scroll_to_cursor c w).track = c.track
      ∧ (scroll_to_cursor c w).string = c.string
      ∧ (scroll_to_cursor c w).scroll ≤ c.beat
      ∧ c.beat < (scroll_to_cursor c w).scroll + w := by
  unfold scroll_to_cursor
  dsimp only
  refine ⟨rfl, rfl, rfl, ?_, ?_⟩ <;> split_ifs <;> omega

/-- C2: seeking to a beat index `N ≥ k` on a `k ≥ 1`-beat track appends
exactly `N - k + 1` beats, each with the duration of the previously-last
beat and no notes; afterwards the cursor sits on beat `N`, the measure
index equals a fresh recompute from the new beats, and the scroll window
(of width `w ≥ 1`) contains the cursor. -/
theorem c2_seek_beat (s : Song) (c : Cursor) (dire : Int) (w : Nat)
    (ht : c.track < s.tracks.length) (hw : 1 ≤ w)
    (hk : 1 ≤ (beatsOf s c).length)
    (hN : (beatsOf s c).length ≤ ((c.beat : Int) + dire).toNat) :
    ∃ b : Beat, (beatsOf s c).getLast? = some b
      ∧ beatsOf (seek_beat s c dire w).1 (seek_beat s c dire w).2
          = beatsOf s c
            ++ List.replicate
                (((c.beat : Int) + dire).toNat + 1 - (beatsOf s c).length)
                ⟨b.dur, []⟩
      ∧ (seek_beat s c dire w).2.beat = ((c.beat : Int) + dire).toNat
      ∧ (seek_beat s c dire w).2.track = c.track
      ∧ (seek_beat s c dire w).2.string = c.string
      ∧ (trackOf (seek_beat s c dire w).1 (seek_beat s c dire w).2).measure_i
          = update_measures
              (beatsOf (seek_beat s c dire w).1 (seek_beat s c dire w).2)
      ∧ (seek_beat s c dire w).2.scroll ≤ (seek_beat s c dire w).2.beat
      ∧ (seek_beat s c dire w).2.beat < (seek_beat s c dire w).2.scroll + w := by
  obtain ⟨b, hb⟩ : ∃ b, (beatsOf s c).getLast? = some b := by
    cases hcase : (beatsOf s c).getLast? with
    | none =>
      rw [List.getLast?_eq_none_iff] at hcase
      rw [hcase] at hk
      simp at hk
    | some b => exact ⟨b, rfl⟩
  set N : Nat := ((c.beat : Int) + dire).toNat with hNdef
  have hext : autoExtend (beatsOf s c) N
      = beatsOf s c ++ List.replicate (N + 1 - (beatsOf s c).length) b.copy_duration :=
    autoExtend_spec (N + 1 - (beatsOf s c).length) (beatsOf s c) N b hb rfl
  obtain ⟨e1, e2, e3, e4, e5⟩ :=
    scroll_to_cursor_spec ({ c with beat := N }) w hw
  have ht1 : c.track < (modifyTrack s c.track
      fun t => { t with beats := autoExtend (beatsOf s c) N }).tracks.length := by
    rw [modifyTrack_tracks_length]
    exact ht
  have hswap : trackOf (seek_beat s c dire w).1 (seek_beat s c dire w).2
      = trackOf (seek_beat s c dire w).1 c := by
    unfold trackOf
    rw [show (seek_beat s c dire w).2.track = c.track from e2]
  have hmain : trackOf (seek_beat s c dire w).1 (seek_beat s c dire w).2
      = { trackOf s c with
          beats := autoExtend (beatsOf s c) N,
          measure_i := update_measures (autoExtend (beatsOf s c) N) } := by
    rw [hswap]
    show trackOf (modifyTrack
        (modifyTrack s c.track fun t => { t with beats := autoExtend (beatsOf s c) N })
        c.track fun t => { t with measure_i := update_measures t.beats }) c = _
    rw [trackOf_modifyTrack _ c _ ht1, trackOf_modifyTrack s c _ ht]
  refine ⟨b, hb, ?_, ?_, ?_, ?_, ?_, ?_, ?_⟩
  · show (trackOf (seek_beat s c dire w).1 (seek_beat s c dire w).2).beats = _
    rw [hmain]
    exact hext
  · exact e1
  · exact e2
  · exact e3
  · show (trackOf (seek_beat s c dire w).1 (seek_beat s c dire w).2).measure_i
      = update_measures
          ((trackOf (seek_beat s c dire w).1 (seek_beat s c dire w).2).beats)
    rw [hmain]
  · exact e4
  · exact e5

/-- A one-beat whole-note six-string track, and a cursor at the origin
(the fresh-track scenario of the spec). -/
def c2Song : Song := ⟨[⟨6, [⟨⟨1, 1⟩, []⟩], []⟩]⟩

def c2Cursor : Cursor := ⟨0, 0, 0, 0⟩

/-- Witness for C2: seeking forward 3 on the fresh track. -/
theorem c2_seek_beat_witness :
    ∃ b : Beat, (beatsOf c2Song c2Cursor).getLast? = some b
      ∧ beatsOf (seek_beat c2Song c2Cursor 3 4).1 (seek_beat c2Song c2Cursor 3 4).2
          = beatsOf c2Song c2Cursor
            ++ List.replicate
                (((c2Cursor.beat : Int) + 3).toNat + 1 - (beatsOf c2Song c2Cursor).length)
                ⟨b.dur, []⟩
      ∧ (seek_beat c2Song c2Cursor 3 4).2.beat = ((c2Cursor.beat : Int) + 3).toNat
      ∧ (seek_beat c2Song c2Cursor 3 4).2.track = c2Cursor.track
      ∧ (seek_beat c2Song c2Cursor 3 4).2.string = c2Cursor.string
      ∧ (trackOf (seek_beat c2Song c2Cursor 3 4).1 (seek_beat c2Song c2Cursor 3 4).2).measure_i
          = update_measures
              (beatsOf (seek_beat c2Song c2Cursor 3 4).1 (seek_beat c2Song c2Cursor 3 4).2)
      ∧ (seek_beat c2Song c2Cursor 3 4).2.scroll ≤ (seek_beat c2Song c2Cursor 3 4).2.beat
      ∧ (seek_beat c2Song c2Cursor 3 4).2.beat
          < (seek_beat c2Song c2Cursor 3 4).2.scroll + 4 :=
  c2_seek_beat c2Song c2Cursor 3 4 (by decide) (by decide) (by decide) (by decide)

/-! ### Per-string note operations on a Beat (src/song.rs) -/

/-- The scan loop of `Beat::set_note` (src/song.rs lines 62-70):
overwrite in place the first pair carrying the string, else append. -/
def setNoteList : List (Nat × Note) → Nat → Note → List (Nat × Note)
  | [], s, n => [(s, n)]
  | (s0, n0) :: rest, s, n =>
    if s0 = s then (s0, n) :: rest
    else (s0, n0) :: setNoteList rest s n

/-- The scan loop of `Beat::copy_note` / `get_note` (src/song.rs lines
44-60): first note on the string, if any. -/
def copyNoteList : List (Nat × Note) → Nat → Option Note
  | [], _ => none
  | (s0, n0) :: rest, s => if s0 = s then some n0 else copyNoteList rest s

/-- `Vec::swap_remove` at an in-bounds index: overwrite with the last
element and pop. -/
def swapRemove {α : Type} (l : List α) (i : Nat) : List α :=
  match l.getLast? with
  | none => l
  | some last => (l.set i last).dropLast

/-- The index scan of `Beat::del_note` (src/song.rs lines 73-77): the
first position carrying the string. -/
def findNoteIdx : List (Nat × Note) → Nat → Option Nat
  | [], _ => none
  | p :: rest, s =>
    if p.1 = s then some 0
    else (findNoteIdx rest s).map (· + 1)

/-- `Beat::del_note` (src/song.rs lines 72-79): swap-remove the first
pair carrying the string, if present. -/
def delNoteList (l : List (Nat × Note)) (s : Nat) : List (Nat × Note) :=
  match findNoteIdx l s with
  | some i => swapRemove l i
  | none => l

def Beat.set_note (b : Beat) (s : Nat) (n : Note) : Beat :=
  { b with notes := setNoteList b.notes s n }

def Beat.del_note (b : Beat) (s : Nat) : Beat :=
  { b with notes := delNoteList b.notes s }

def Beat.copy_note (b : Beat) (s : Nat) : Option Note :=
  copyNoteList b.notes s

/-- Overwriting a string twice keeps only the second write. -/
theorem setNoteList_overwrite (ns : List (Nat × Note)) (s : Nat) (a b : Note) :
    setNoteList (setNoteList ns s a) s b = setNoteList ns s b := by
  induction ns with
  | nil => simp [setNoteList]
  | cons p rest ih =>
    obtain ⟨s0, n0⟩ := p
    by_cases h : s0 = s
    · simp only [setNoteList, if_pos h]
    · simp only [setNoteList, if_neg h, ih]

/-- Setting an absent string appends. -/
theorem setNoteList_absent (ns : List (Nat × Note)) (s : Nat) (n : Note)
    (h : copyNoteList ns s = none) :
    setNoteList ns s n = ns ++ [(s, n)] := by
  induction ns with
  | nil => rfl
  | cons p rest ih =>
    obtain ⟨s0, n0⟩ := p
    by_cases hs : s0 = s
    · simp [copyNoteList, hs] at h
    · simp only [copyNoteList, if_neg hs] at h
      simp only [setNoteList, if_neg hs, List.cons_append, ih h]

theorem findNoteIdx_absent (ns : List (Nat × Note)) (s : Nat)
    (h : copyNoteList ns s = none) :
    findNoteIdx ns s = none := by
  induction ns with
  | nil => rfl
  | cons p rest ih =>
    obtain ⟨s0, n0⟩ := p
    by_cases hs : s0 = s
    · simp [copyNoteList, hs] at h
    · simp only [copyNoteList, if_neg hs] at h
      rw [findNoteIdx]
      simp only [if_neg hs, ih h, Option.map_none']

/-- Deleting an absent string is a no-op. -/
theorem delNoteList_absent (ns : List (Nat × Note)) (s : Nat)
    (h : copyNoteList ns s = none) :
    delNoteList ns s = ns := by
  unfold delNoteList
  rw [findNoteIdx_absent ns s h]

theorem findNoteIdx_append (ns : List (Nat × Note)) (s : Nat) (n : Note)
    (h : copyNoteList ns s = none) :
    findNoteIdx (ns ++ [(s, n)]) s = some ns.length := by
  induction ns with
  | nil => simp [findNoteIdx]
  | cons p rest ih =>
    obtain ⟨s0, n0⟩ := p
    by_cases hs : s0 = s
    · simp [copyNoteList, hs] at h
    · simp only [copyNoteList, if_neg hs] at h
      rw [List.cons_append, findNoteIdx]
      simp only [if_neg hs, ih h, Option.map_some', List.length_cons]

/-- Deleting the string just appended by `setNoteList_absent` restores
the original list (the appended pair is last, so swap-remove pops it). -/
theorem delNoteList_append (ns : List (Nat × Note)) (s : Nat) (n : Note)
    (h : copyNoteList ns s = none) :
    delNoteList (ns ++ [(s, n)]) s = ns := by
  unfold delNoteList
  rw [findNoteIdx_append ns s n h]
  show swapRemove (ns ++ [(s, n)]) ns.length = ns
  unfold swapRemove
  rw [List.getLast?_concat]
  show (((ns ++ [(s, n)]).set ns.length (s, n))).dropLast = ns
  rw [List.set_append_right _ _ (le_refl ns.length)]
  simp

/-- `copy_note` misses exactly when no pair carries the string. -/
theorem copyNoteList_eq_none_iff (ns : List (Nat × Note)) (s : Nat) :
    copyNoteList ns s = none ↔ ∀ p ∈ ns, p.1 ≠ s := by
  induction ns with
  | nil => simp [copyNoteList]
  | cons p rest ih =>
    obtain ⟨s0, n0⟩ := p
    by_cases hs : s0 = s
    · rw [copyNoteList, if_pos hs]
      refine iff_of_false (by simp) ?_
      intro hall
      exact hall (s0, n0) (List.mem_cons_self _ _) hs
    · rw [copyNoteList, if_neg hs, ih]
      constructor
      · rintro h q hq
        rcases List.mem_cons.mp hq with rfl | hq2
        · exact hs
        · exact h q hq2
      · intro h q hq
        exact h q (List.mem_cons_of_mem _ hq)

theorem findNoteIdx_some (ns : List (Nat × Note)) (s : Nat) :
    ∀ i, findNoteIdx ns s = some i →
      ∃ hi : i < ns.length, (ns.get ⟨i, hi⟩).1 = s := by
  induction ns with
  | nil => intro i h; cases h
  | cons p rest ih =>
    intro i h
    obtain ⟨s0, n0⟩ := p
    by_cases hs : s0 = s
    · rw [findNoteIdx, if_pos hs] at h
      injection h with h
      subst h
      exact ⟨by simp, hs⟩
    · rw [findNoteIdx, if_neg hs] at h
      cases hr : findNoteIdx rest s with
      | none => rw [hr] at h; cases h
      | some j =>
        rw [hr] at h
        simp only [Option.map_some'] at h
        injection h with h
        subst h
        obtain ⟨hj, hkey⟩ := ih j hr
        refine ⟨by simp only [List.length_cons]; omega, ?_⟩
        simpa using hkey

theorem copyNoteList_of_findNoteIdx_none (ns : List (Nat × Note)) (s : Nat)
    (h : findNoteIdx ns s = none) :
    copyNoteList ns s = none := by
  induction ns with
  | nil => rfl
  | cons p rest ih =>
    obtain ⟨s0, n0⟩ := p
    by_cases hs : s0 = s
    · rw [findNoteIdx, if_pos hs] at h
      cases h
    · rw [findNoteIdx, if_neg hs] at h
      rw [copyNoteList, if_neg hs]
      cases hr : findNoteIdx rest s with
      | none => exact ih hr
      | some j => rw [hr] at h; simp at h

/-- After a delete the string is gone, provided string keys are unique. -/
theorem copyNoteList_delNoteList (ns : List (Nat × Note)) (s : Nat)
    (hnd : (ns.map Prod.fst).Nodup) :
    copyNoteList (delNoteList ns s) s = none := by
  have keyinj : ∀ (a b : Nat) (ha : a < ns.length) (hb : b < ns.length),
      (ns.get ⟨a, ha⟩).1 = s → (ns.get ⟨b, hb⟩).1 = s → a = b := by
    intro a b ha hb hka hkb
    have h1 : (ns.map Prod.fst).get ⟨a, by simpa using ha⟩
        = (ns.map Prod.fst).get ⟨b, by simpa using hb⟩ := by
      simp only [List.get_eq_getElem, List.getElem_map]
      rw [show ns[a] = ns.get ⟨a, ha⟩ from rfl,
        show ns[b] = ns.get ⟨b, hb⟩ from rfl, hka, hkb]
    have := (hnd.get_inj_iff).mp h1
    simpa using Fin.val_eq_of_eq this
  cases hc : copyNoteList ns s with
  | none => rw [delNoteList_absent ns s hc]; exact hc
  | some o =>
    unfold delNoteList
    cases hidx : findNoteIdx ns s with
    | none =>
      exfalso
      rw [copyNoteList_of_findNoteIdx_none ns s hidx] at hc
      cases hc
    | some i =>
      obtain ⟨hi, hkey⟩ := findNoteIdx_some ns s i hidx
      have hne : ns ≠ [] := by
        intro hC
        subst hC
        simp at hi
      obtain ⟨last, hlast⟩ : ∃ b, ns.getLast? = some b := by
        cases hg : ns.getLast? with
        | none =>
          rw [List.getLast?_eq_none_iff] at hg
          exact absurd hg hne
        | some b => exact ⟨b, rfl⟩
      have hlast_eq : last = ns.get ⟨ns.length - 1, by omega⟩ := by
        rw [List.getLast?_eq_getElem?] at hlast
        rw [List.getElem?_eq_getElem (by omega : ns.length - 1 < ns.length)] at hlast
        injection hlast with h
        exact h.symm
      unfold swapRemove
      rw [hlast]
      rw [copyNoteList_eq_none_iff]
      intro p hp
      rw [List.mem_iff_getElem] at hp
      obtain ⟨j, hj, hpj⟩ := hp
      have hjlen : j < ns.length - 1 := by
        simpa [List.length_dropLast, List.length_set] using hj
      have hjset : j < (ns.set i last).length := by
        simp only [List.length_set]
        omega
      have hgd : ((ns.set i last).dropLast)[j] = (ns.set i last)[j] :=
        List.getElem_dropLast _ _ _
      intro hps
      by_cases hji : j = i
      · subst hji
        have hset : (ns.set j last)[j] = last :=
          List.getElem_set_self hjset
        have hplast : p = last := by rw [← hpj, hgd, hset]
        have hkl : (ns.get ⟨ns.length - 1, by omega⟩).1 = s := by
          rw [← hlast_eq, ← hplast]
          exact hps
        have := keyinj j (ns.length - 1) (by omega) (by omega) hkey hkl
        omega
      · have hjn : j < ns.length := by omega
        have hset : (ns.set i last)[j] = ns[j] :=
          List.getElem_set_ne (fun hC => hji hC.symm) _
        have hpj2 : p = ns.get ⟨j, by omega⟩ := by rw [← hpj, hgd, hset]; rfl
        have hkj : (ns.get ⟨j, by omega⟩).1 = s := by rw [← hpj2]; exact hps
        exact hji (keyinj j i (by omega) hi hkj hkey)

/-! ### Cursor mutation operations (src/cursor.rs lines 142-224) -/

/-- A junk beat used as the `getD` default; every access is guarded by an
in-bounds hypothesis (the source indexing panics out of bounds). -/
def beatAt (s : Song) (c : Cursor) : Beat :=
  (beatsOf s c).getD c.beat ⟨⟨0, 0⟩, []⟩

/-- `self.beat_mut(song)` followed by a beat update, as a Song transform. -/
def modifyBeat (s : Song) (c : Cursor) (f : Beat → Beat) : Song :=
  modifyTrack s c.track fun t => { t with beats := listModify f c.beat t.beats }

/-- `self.track_mut(song).update_measures()`. -/
def Cursor.updMeasures (c : Cursor) (s : Song) : Song :=
  modifyTrack s c.track fun t => { t with measure_i := update_measures t.beats }

/-- `Cursor::set_duration` (lines 142-145). -/
def Cursor.set_duration (c : Cursor) (s : Song) (d : Duration) : Song :=
  c.updMeasures (modifyBeat s c fun b => { b with dur := d })

/-- `Cursor::set_note` (lines 147-149). -/
def Cursor.set_note (c : Cursor) (s : Song) (n : Note) : Song :=
  modifyBeat s c fun b => b.set_note c.string n

/-- `Cursor::set_notes` (lines 151-153). -/
def Cursor.set_notes (c : Cursor) (s : Song) (notes : List (Nat × Note)) : Song :=
  modifyBeat s c fun b => { b with notes := notes }

/-- `Cursor::clear_note` (lines 155-157). -/
def Cursor.clear_note (c : Cursor) (s : Song) : Song :=
  modifyBeat s c fun b => b.del_note c.string

/-- `Cursor::clear_beat` (lines 159-161). -/
def Cursor.clear_beat (c : Cursor) (s : Song) : Song :=
  modifyBeat s c fun b => { b with notes := [] }

/-- The loop of `Cursor::clear_beats` (lines 163-167):
`for i in beat..beat+count { beats[i].notes.clear() }`. -/
def clearLoop (l : List Beat) (i : Nat) : Nat → List Beat
  | 0 => l
  | k + 1 => clearLoop (listModify (fun b => { b with notes := [] }) i l) (i + 1) k

/-- `Cursor::clear_beats` (lines 163-167); note: no measure recompute. -/
def Cursor.clear_beats (c : Cursor) (s : Song) (count : Nat) : Song :=
  modifyTrack s c.track fun t => { t with beats := clearLoop t.beats c.beat count }

/-- `Cursor::delete_beat` (lines 169-172). -/
def Cursor.delete_beat (c : Cursor) (s : Song) : Song :=
  c.updMeasures (modifyTrack s c.track fun t =>
    { t with beats := t.beats.eraseIdx c.beat })

/-- `Cursor::delete_beats` (lines 174-178): splice the range away. -/
def Cursor.delete_beats (c : Cursor) (s : Song) (count : Nat) : Song :=
  c.updMeasures (modifyTrack s c.track fun t =>
    { t with beats := t.beats.take c.beat ++ t.beats.drop (c.beat + count) })

/-- `Cursor::insert_beat` (lines 200-207). -/
def Cursor.insert_beat (c : Cursor) (s : Song) (in_place : Bool) (b : Beat) : Song :=
  c.updMeasures (modifyTrack s c.track fun t =>
    { t with beats :=
        if in_place then t.beats.set c.beat b else insertAt c.beat b t.beats })

/-- `Cursor::insert_beats` (lines 209-218): optionally remove the beat at
the cursor, then split and splice the source in. -/
def Cursor.insert_beats (c : Cursor) (s : Song) (in_place : Bool)
    (src : List Beat) : Song :=
  c.updMeasures (modifyTrack s c.track fun t =>
    { t with beats :=
        let base := if in_place then t.beats.eraseIdx c.beat else t.beats
        base.take c.beat ++ src ++ base.drop c.beat })

/-- `Cursor::replace_beats` (lines 220-224). -/
def Cursor.replace_beats (c : Cursor) (s : Song) (src : List Beat) : Song :=
  c.updMeasures (modifyTrack s c.track fun t =>
    { t with beats := t.beats.take c.beat ++ src ++ t.beats.drop (c.beat + src.length) })

/-- `Cursor::clone_note` (lines 70-72). -/
def Cursor.clone_note (c : Cursor) (s : Song) : Option Note :=
  (beatAt s c).copy_note c.string

/-- `Cursor::clone_beat` (lines 62-64). -/
def Cursor.clone_beat (c : Cursor) (s : Song) : Beat :=
  beatAt s c

/-- `Cursor::clone_chord` (lines 66-68). -/
def Cursor.clone_chord (c : Cursor) (s : Song) : List (Nat × Note) :=
  (beatAt s c).notes

/-- `Cursor::clone_beats_slice` (lines 55-60), in its in-bounds regime. -/
def Cursor.clone_beats_slice (c : Cursor) (s : Song) (count : Nat) : List Beat :=
  ((beatsOf s c).drop c.beat).take count

/-! ### Action, recording, and the apply/undo pair (src/history.rs lines
8-50 for the variants; the apply and inverse functions are not in the
repository, see below) -/

/-- `Action` (src/history.rs lines 8-50): one reversible edit, carrying
the cursor address and the old/new state it needs. -/
inductive Action where
  | setDuration (cur : Cursor) (old : Duration) (new : Duration)
  | setNote (cur : Cursor) (old : Option Note) (new : Option Note)
  | clearBeat (cur : Cursor) (old : List (Nat × Note))
  | clearBeats (cur : Cursor) (old : List Beat)
  | deleteBeat (cur : Cursor) (old : Beat)
  | deleteBeats (cur : Cursor) (old : List Beat)
  | pasteNote (cur : Cursor) (old : Option Note) (buf : Note)
  | pasteBeat (cur : Cursor) (old : Option Beat) (buf : Beat)
  | pasteBeats (cur : Cursor) (old : Option Beat) (buf : List Beat)
  deriving Repr, DecidableEq

/-- The closed set of edit mutators over the Song (the Cursor mutation
operations of src/cursor.rs that the Action variants record). -/
inductive Edit where
  | setDuration (d : Duration)
  | setNote (n : Option Note)
  | clearBeat
  | clearBeats (count : Nat)
  | deleteBeat
  | deleteBeats (count : Nat)
  | pasteNote (n : Note)
  | pasteBeat (in_place : Bool) (b : Beat)
  | pasteBeats (in_place : Bool) (bs : List Beat)
  deriving Repr, DecidableEq

/-- Recording an edit: capture the old state at the cursor through the
clone accessors, exactly as the Action constructors require
(src/history.rs lines 52-88). -/
def record (e : Edit) (c : Cursor) (s : Song) : Action :=
  match e with
  | .setDuration d => .setDuration c (beatAt s c).dur d
  | .setNote n => .setNote c (c.clone_note s) n
  | .clearBeat => .clearBeat c (c.clone_chord s)
  | .clearBeats k => .clearBeats c (c.clone_beats_slice s k)
  | .deleteBeat => .deleteBeat c (c.clone_beat s)
  | .deleteBeats k => .deleteBeats c (c.clone_beats_slice s k)
  | .pasteNote n => .pasteNote c (c.clone_note s) n
  | .pasteBeat ip b => .pasteBeat c (if ip then some (c.clone_beat s) else none) b
  | .pasteBeats ip bs => .pasteBeats c (if ip then some (c.clone_beat s) else none) bs

/-- Performing an edit mutator against the Song (src/cursor.rs). -/
def applyEdit (e : Edit) (c : Cursor) (s : Song) : Song :=
  match e with
  | .setDuration d => c.set_duration s d
  | .setNote (some n) => c.set_note s n
  | .setNote none => c.clear_note s
  | .clearBeat => c.clear_beat s
  | .clearBeats k => c.clear_beats s k
  | .deleteBeat => c.delete_beat s
  | .deleteBeats k => c.delete_beats s k
  | .pasteNote n => c.set_note s n
  | .pasteBeat ip b => c.insert_beat s ip b
  | .pasteBeats ip bs => c.insert_beats s ip bs

/-- Modelled from the spec: the forward apply function over the closed
Action variant set (used on redo).  The repository declares the Action
variants but contains no apply/un-apply implementation (app.rs does not
use History), so this follows spec section 4.5: each variant replays its
new/buffer state through the Cursor address embedded in the Action. -/
def applyAction : Action → Song → Song
  | .setDuration c _ new, s => c.set_duration s new
  | .setNote c _ (some n), s => c.set_note s n
  | .setNote c _ none, s => c.clear_note s
  | .clearBeat c _, s => c.clear_beat s
  | .clearBeats c old, s => c.clear_beats s old.length
  | .deleteBeat c _, s => c.delete_beat s
  | .deleteBeats c old, s => c.delete_beats s old.length
  | .pasteNote c _ buf, s => c.set_note s buf
  | .pasteBeat c old buf, s => c.insert_beat s old.isSome buf
  | .pasteBeats c old buf, s => c.insert_beats s old.isSome buf

/-- Modelled from the spec: the inverse (undo) function over the closed
Action variant set, computed directly from the old fields each variant
carries (spec section 4.5), routed through the embedded Cursor. -/
def unapplyAction : Action → Song → Song
  | .setDuration c old _, s => c.set_duration s old
  | .setNote c (some n) _, s => c.set_note s n
  | .setNote c none _, s => c.clear_note s
  | .clearBeat c old, s => c.set_notes s old
  | .clearBeats c old, s => c.replace_beats s old
  | .deleteBeat c old, s => c.insert_beat s false old
  | .deleteBeats c old, s => c.insert_beats s false old
  | .pasteNote c (some n) _, s => c.set_note s n
  | .pasteNote c none _, s => c.clear_note s
  | .pasteBeat c (some b) _, s => c.insert_beat s true b
  | .pasteBeat c none _, s => c.delete_beat s
  | .pasteBeats c (some b) buf, s => c.insert_beat (c.delete_beats s buf.length) false b
  | .pasteBeats c none buf, s => c.delete_beats s buf.length

/-- In-bounds side conditions under which an edit's source indexing does
not panic: a valid track, a valid beat, and in-range counts. -/
def editOK (e : Edit) (c : Cursor) (s : Song) : Prop :=
  c.track < s.tracks.length ∧ c.beat < (beatsOf s c).length ∧
    match e with
    | .clearBeats k => c.beat + k ≤ (beatsOf s c).length
    | .deleteBeats k => c.beat + k ≤ (beatsOf s c).length
    | _ => True

/-! ### List toolkit for the round-trip proof -/

theorem listModify_comp {α : Type} (f g : α → α) :
    ∀ (i : Nat) (l : List α),
      listModify g i (listModify f i l) = listModify (fun x => g (f x)) i l := by
  intro i
  induction i with
  | zero =>
    intro l
    cases l <;> rfl
  | succ n ih =>
    intro l
    cases l with
    | nil => rfl
    | cons x xs => simp only [listModify, ih]

theorem listModify_congr {α : Type} (f g : α → α) (h : ∀ x, f x = g x) :
    ∀ (i : Nat) (l : List α), listModify f i l = listModify g i l := by
  intro i
  induction i with
  | zero =>
    intro l
    cases l with
    | nil => rfl
    | cons x xs => simp only [listModify, h]
  | succ n ih =>
    intro l
    cases l with
    | nil => rfl
    | cons x xs => simp only [listModify, ih]

theorem listModify_eq_at {α : Type} (f g : α → α) :
    ∀ (i : Nat) (l : List α) (hi : i < l.length),
      f (l.get ⟨i, hi⟩) = g (l.get ⟨i, hi⟩) →
      listModify f i l = listModify g i l := by
  intro i
  induction i with
  | zero =>
    intro l hi he
    cases l with
    | nil => simp at hi
    | cons x xs =>
      simp only [listModify]
      rw [show f x = g x from he]
  | succ n ih =>
    intro l hi he
    cases l with
    | nil => simp at hi
    | cons x xs =>
      simp only [listModify]
      rw [ih xs (by simpa using hi) he]

/-- `listModify` at an in-bounds index, in take/drop normal form. -/
theorem listModify_NF {α : Type} (f : α → α) :
    ∀ (i : Nat) (l : List α) (hi : i < l.length),
      listModify f i l = l.take i ++ f (l.get ⟨i, hi⟩) :: l.drop (i + 1) := by
  intro i
  induction i with
  | zero =>
    intro l hi
    cases l with
    | nil => simp at hi
    | cons x xs => rfl
  | succ n ih =>
    intro l hi
    cases l with
    | nil => simp at hi
    | cons x xs =>
      simp only [listModify, List.take_succ_cons, List.drop_succ_cons,
        List.cons_append]
      rw [ih xs (by simpa using hi)]
      rfl

theorem modifyTrack_comp (s : Song) (i : Nat) (f g : Track → Track) :
    modifyTrack (modifyTrack s i f) i g = modifyTrack s i (fun t => g (f t)) := by
  unfold modifyTrack
  rw [listModify_comp]

theorem song_ops_eq (s : Song) (i : Nat) (F G : Track → Track)
    (hi : i < s.tracks.length)
    (h : F (s.tracks.get ⟨i, hi⟩) = G (s.tracks.get ⟨i, hi⟩)) :
    modifyTrack s i F = modifyTrack s i G := by
  unfold modifyTrack
  rw [listModify_eq_at F G i s.tracks hi h]

/-- Inserting at the boundary of an exact-length prefix. -/
theorem insertAt_boundary {α : Type} :
    ∀ (l1 : List α) (a : α) (l2 : List α),
      insertAt l1.length a (l1 ++ l2) = l1 ++ a :: l2 := by
  intro l1
  induction l1 with
  | nil => intro a l2; rfl
  | cons x xs ih =>
    intro a l2
    simp only [List.length_cons, List.cons_append, insertAt]
    exact congrArg (x :: ·) (ih a l2)

/-- A list is its prefix, a middle slice, and the tail past the slice. -/
theorem take_slice_drop {α : Type} (l : List α) (i k : Nat) :
    l.take i ++ ((l.drop i).take k ++ l.drop (i + k)) = l := by
  have h1 : (l.drop i).take k ++ (l.drop i).drop k = l.drop i :=
    List.take_append_drop k (l.drop i)
  have h2 : (l.drop i).drop k = l.drop (i + k) := List.drop_drop k i l
  rw [← h2, h1, List.take_append_drop]

/-- A list is its prefix, the element at `i`, and the tail past `i`. -/
theorem take_getElem_drop {α : Type} (l : List α) (i : Nat) (hi : i < l.length) :
    l.take i ++ l.get ⟨i, hi⟩ :: l.drop (i + 1) = l := by
  have h := List.drop_eq_getElem_cons (n := i) (l := l) hi
  rw [show l.get ⟨i, hi⟩ = l[i] from rfl, ← h, List.take_append_drop]

theorem length_take_of_le {α : Type} (l : List α) (i : Nat) (h : i ≤ l.length) :
    (l.take i).length = i := by
  rw [List.length_take]
  omega

/-- The clear-beats loop in splice normal form. -/
theorem clearLoop_spec :
    ∀ (k : Nat) (l : List Beat) (i : Nat), i + k ≤ l.length →
      clearLoop l i k
        = l.take i ++ ((l.drop i).take k).map (fun b => { b with notes := [] })
            ++ l.drop (i + k) := by
  intro k
  induction k with
  | zero =>
    intro l i h
    show l = _
    simp only [List.take_zero, List.map_nil, List.append_nil, Nat.add_zero]
    rw [List.take_append_drop]
  | succ k ih =>
    intro l i h
    have hi : i < l.length := by omega
    show clearLoop (listModify (fun b => { b with notes := [] }) i l) (i + 1) k = _
    set f : Beat → Beat := fun b => { b with notes := [] } with hf
    set A := l.take i with hA
    set gi := l.get ⟨i, hi⟩ with hgi
    set B := l.drop (i + 1) with hB
    have htk : A.length = i := by
      rw [hA]
      exact length_take_of_le l i (by omega)
    have hBlen : B.length = l.length - (i + 1) := by
      rw [hB, List.length_drop]
    have hNF : listModify f i l = A ++ f gi :: B := listModify_NF f i l hi
    rw [hNF, ih (A ++ f gi :: B) (i + 1) (by
      simp only [List.length_append, List.length_cons, htk, hBlen]
      omega)]
    have h1 : (A ++ f gi :: B).take (i + 1) = A ++ [f gi] := by
      rw [List.take_append_eq_append_take, htk,
        List.take_of_length_le (by omega : A.length ≤ i + 1)]
      congr 1
      rw [show i + 1 - i = 1 from by omega]
      rfl
    have h2 : (A ++ f gi :: B).drop (i + 1) = B := by
      rw [List.drop_append_eq_append_drop, htk,
        List.drop_of_length_le (by omega : A.length ≤ i + 1)]
      rw [show i + 1 - i = 1 from by omega]
      rfl
    have h3 : (A ++ f gi :: B).drop (i + 1 + k) = B.drop k := by
      rw [List.drop_append_eq_append_drop, htk,
        List.drop_of_length_le (by omega : A.length ≤ i + 1 + k)]
      rw [show i + 1 + k - i = k + 1 from by omega]
      rfl
    rw [h1, h2, h3]
    have h4 : (l.drop i).take (k + 1) = gi :: B.take k := by
      rw [List.drop_eq_getElem_cons hi, hgi, hB]
      rfl
    have h5 : l.drop (i + (k + 1)) = B.drop k := by
      rw [hB, List.drop_drop]
      congr 1
      omega
    rw [h4, h5]
    simp [List.append_assoc]

theorem getD_eq_get {α : Type} (l : List α) (d : α) (i : Nat) (h : i < l.length) :
    l.getD i d = l.get ⟨i, h⟩ := by
  rw [List.getD_eq_getElem?_getD, List.getElem?_eq_getElem h]
  rfl

theorem trackOf_eq_get (s : Song) (c : Cursor) (ht : c.track < s.tracks.length) :
    trackOf s c = s.tracks.get ⟨c.track, ht⟩ := by
  unfold trackOf
  exact getD_eq_get _ _ _ ht

/-- `insertAt` at an in-bounds index, in take/drop normal form. -/
theorem insertAt_NF {α : Type} :
    ∀ (j : Nat) (a : α) (l : List α), j ≤ l.length →
      insertAt j a l = l.take j ++ a :: l.drop j := by
  intro j
  induction j with
  | zero => intro a l _; rfl
  | succ n ih =>
    intro a l h
    cases l with
    | nil => simp at h
    | cons x xs =>
      simp only [insertAt, List.take_succ_cons, List.drop_succ_cons,
        List.cons_append]
      exact congrArg (x :: ·) (ih a xs (by simpa using h))

/-- Removing a just-inserted element restores the list. -/
theorem eraseIdx_insertAt {α : Type} (j : Nat) (a : α) (l : List α)
    (h : j ≤ l.length) :
    (insertAt j a l).eraseIdx j = l := by
  rw [insertAt_NF j a l h, List.eraseIdx_eq_take_drop_succ]
  have htk : (l.take j).length = j := length_take_of_le l j h
  rw [List.take_append_eq_append_take, htk,
    List.take_of_length_le (by omega : (l.take j).length ≤ j),
    Nat.sub_self, List.take_zero, List.append_nil]
  rw [List.drop_append_eq_append_drop, htk,
    List.drop_of_length_le (by omega : (l.take j).length ≤ j + 1),
    show j + 1 - j = 1 from by omega]
  show l.take j ++ l.drop j = l
  exact List.take_append_drop j l

/-- Inserting a just-removed element restores the list. -/
theorem insertAt_eraseIdx {α : Type} (l : List α) (j : Nat) (hj : j < l.length) :
    insertAt j (l.get ⟨j, hj⟩) (l.eraseIdx j) = l := by
  rw [List.eraseIdx_eq_take_drop_succ]
  have hb := insertAt_boundary (l.take j) (l.get ⟨j, hj⟩) (l.drop (j + 1))
  rw [length_take_of_le l j (by omega)] at hb
  rw [hb]
  exact take_getElem_drop l j hj

/-- `C5` round-trip, setDuration shape: three overwrites of the same
beat's duration collapse to the last one. -/
theorem roundtrip_set_duration (c : Cursor) (s : Song) (d old : Duration)
    (ht : c.track < s.tracks.length) :
    c.set_duration (c.set_duration (c.set_duration s d) old) d
      = c.set_duration s d := by
  unfold Cursor.set_duration Cursor.updMeasures modifyBeat
  simp only [modifyTrack_comp]
  apply song_ops_eq s c.track _ _ ht
  dsimp only
  rw [listModify_comp, listModify_comp]

/-- Round-trip, set-note shape with a previous note: overwrite, restore
the old note, overwrite again. -/
theorem roundtrip_set_note_some (c : Cursor) (s : Song) (n o : Note)
    (ht : c.track < s.tracks.length) :
    c.set_note (c.set_note (c.set_note s n) o) n = c.set_note s n := by
  unfold Cursor.set_note modifyBeat
  simp only [modifyTrack_comp]
  apply song_ops_eq s c.track _ _ ht
  dsimp only
  rw [listModify_comp, listModify_comp]
  congr 1
  apply listModify_congr
  intro b
  unfold Beat.set_note
  dsimp only
  rw [setNoteList_overwrite, setNoteList_overwrite]

/-- Round-trip, set-note shape on a string with no previous note: the
undo deletes the note that was added. -/
theorem roundtrip_set_note_none (c : Cursor) (s : Song) (n : Note)
    (ht : c.track < s.tracks.length)
    (hjB : c.beat < (s.tracks.get ⟨c.track, ht⟩).beats.length)
    (hold : copyNoteList
      ((s.tracks.get ⟨c.track, ht⟩).beats.get ⟨c.beat, hjB⟩).notes c.string = none) :
    c.set_note (c.clear_note (c.set_note s n)) n = c.set_note s n := by
  unfold Cursor.set_note Cursor.clear_note modifyBeat
  simp only [modifyTrack_comp]
  apply song_ops_eq s c.track _ _ ht
  dsimp only
  rw [listModify_comp, listModify_comp]
  congr 1
  apply listModify_eq_at _ _ c.beat _ hjB
  set b0 := (s.tracks.get ⟨c.track, ht⟩).beats.get ⟨c.beat, hjB⟩ with hb0
  show Beat.set_note (Beat.del_note (Beat.set_note b0 c.string n) c.string) c.string n
    = Beat.set_note b0 c.string n
  unfold Beat.set_note Beat.del_note
  dsimp only
  rw [setNoteList_absent _ _ _ hold, delNoteList_append _ _ _ hold,
    setNoteList_absent _ _ _ hold]

/-- Round-trip, clear-note shape (with unique string keys, the Beat data
invariant): delete, restore the old note, delete again. -/
theorem roundtrip_clear_note_some (c : Cursor) (s : Song) (o : Note)
    (ht : c.track < s.tracks.length)
    (hjB : c.beat < (s.tracks.get ⟨c.track, ht⟩).beats.length)
    (hnd : (((s.tracks.get ⟨c.track, ht⟩).beats.get ⟨c.beat, hjB⟩).notes.map
      Prod.fst).Nodup) :
    c.clear_note (c.set_note (c.clear_note s) o) = c.clear_note s := by
  unfold Cursor.set_note Cursor.clear_note modifyBeat
  simp only [modifyTrack_comp]
  apply song_ops_eq s c.track _ _ ht
  dsimp only
  rw [listModify_comp, listModify_comp]
  congr 1
  apply listModify_eq_at _ _ c.beat _ hjB
  set b0 := (s.tracks.get ⟨c.track, ht⟩).beats.get ⟨c.beat, hjB⟩ with hb0
  show Beat.del_note (Beat.set_note (Beat.del_note b0 c.string) c.string o) c.string
    = Beat.del_note b0 c.string
  unfold Beat.set_note Beat.del_note
  dsimp only
  have h1 : copyNoteList (delNoteList b0.notes c.string) c.string = none :=
    copyNoteList_delNoteList b0.notes c.string hnd
  rw [setNoteList_absent _ _ _ h1, delNoteList_append _ _ _ h1]

/-- Round-trip, clear-note shape on a string with no note: all three
deletes are no-ops. -/
theorem roundtrip_clear_note_none (c : Cursor) (s : Song)
    (ht : c.track < s.tracks.length)
    (hjB : c.beat < (s.tracks.get ⟨c.track, ht⟩).beats.length)
    (hold : copyNoteList
      ((s.tracks.get ⟨c.track, ht⟩).beats.get ⟨c.beat, hjB⟩).notes c.string = none) :
    c.clear_note (c.clear_note (c.clear_note s)) = c.clear_note s := by
  unfold Cursor.clear_note modifyBeat
  simp only [modifyTrack_comp]
  apply song_ops_eq s c.track _ _ ht
  dsimp only
  rw [listModify_comp, listModify_comp]
  congr 1
  apply listModify_eq_at _ _ c.beat _ hjB
  set b0 := (s.tracks.get ⟨c.track, ht⟩).beats.get ⟨c.beat, hjB⟩ with hb0
  show Beat.del_note (Beat.del_note (Beat.del_note b0 c.string) c.string) c.string
    = Beat.del_note b0 c.string
  unfold Beat.del_note
  dsimp only
  rw [delNoteList_absent _ _ hold, delNoteList_absent _ _ hold,
    delNoteList_absent _ _ hold]

/-- Round-trip, clear-beat shape: wipe the chord, restore it wholesale,
wipe it again. -/
theorem roundtrip_clear_beat (c : Cursor) (s : Song)
    (old : List (Nat × Note)) (ht : c.track < s.tracks.length) :
    c.clear_beat (c.set_notes (c.clear_beat s) old) = c.clear_beat s := by
  unfold Cursor.clear_beat Cursor.set_notes modifyBeat
  simp only [modifyTrack_comp]
  apply song_ops_eq s c.track _ _ ht
  dsimp only
  rw [listModify_comp, listModify_comp]

/-- Round-trip, delete-beat shape: delete, re-insert the removed beat at
the cursor, delete again. -/
theorem roundtrip_delete_beat (c : Cursor) (s : Song)
    (ht : c.track < s.tracks.length)
    (hjB : c.beat < (s.tracks.get ⟨c.track, ht⟩).beats.length) :
    c.delete_beat (c.insert_beat (c.delete_beat s) false
        ((s.tracks.get ⟨c.track, ht⟩).beats.get ⟨c.beat, hjB⟩))
      = c.delete_beat s := by
  unfold Cursor.delete_beat Cursor.insert_beat Cursor.updMeasures
  simp only [modifyTrack_comp]
  apply song_ops_eq s c.track _ _ ht
  dsimp only
  rw [insertAt_eraseIdx _ _ hjB]
  rw [if_neg (by decide : ¬(false = true))]

theorem ite_true_eq {α : Type} {h : Decidable True} (a b : α) :
    @ite α True h a b = a :=
  if_pos trivial

theorem ite_false_eq {α : Type} {h : Decidable False} (a b : α) :
    @ite α False h a b = b :=
  if_neg (fun f => f)

theorem ite_bool_true {α : Type} (a b : α) : (if true = true then a else b) = a :=
  if_pos rfl

theorem ite_bool_false {α : Type} (a b : α) : (if false = true then a else b) = b :=
  if_neg (by decide)

/-- Round-trip, in-place paste-beat shape: three overwrites of the same
slot collapse to the last one. -/
theorem roundtrip_paste_beat_true (c : Cursor) (s : Song) (b b0 : Beat)
    (ht : c.track < s.tracks.length) :
    c.insert_beat (c.insert_beat (c.insert_beat s true b) true b0) true b
      = c.insert_beat s true b := by
  unfold Cursor.insert_beat Cursor.updMeasures
  simp only [modifyTrack_comp]
  apply song_ops_eq s c.track _ _ ht
  dsimp only
  simp only [ite_true_eq, ite_false_eq, ite_bool_true, ite_bool_false]
  rw [List.set_set, List.set_set]

/-- Round-trip, insert paste-beat shape: insert, delete the inserted
beat, insert again. -/
theorem roundtrip_paste_beat_false (c : Cursor) (s : Song) (b : Beat)
    (ht : c.track < s.tracks.length)
    (hjB : c.beat ≤ (s.tracks.get ⟨c.track, ht⟩).beats.length) :
    c.insert_beat (c.delete_beat (c.insert_beat s false b)) false b
      = c.insert_beat s false b := by
  unfold Cursor.insert_beat Cursor.delete_beat Cursor.updMeasures
  simp only [modifyTrack_comp]
  apply song_ops_eq s c.track _ _ ht
  dsimp only
  simp only [ite_true_eq, ite_false_eq, ite_bool_true, ite_bool_false]
  rw [eraseIdx_insertAt _ _ _ hjB]

/-- Round-trip, delete-beats shape: splice the range away, splice the
saved range back in, splice it away again. -/
theorem roundtrip_delete_beats (c : Cursor) (s : Song) (k : Nat)
    (ht : c.track < s.tracks.length)
    (hk : c.beat + k ≤ (s.tracks.get ⟨c.track, ht⟩).beats.length) :
    c.delete_beats
        (c.insert_beats (c.delete_beats s k) false
          (((s.tracks.get ⟨c.track, ht⟩).beats.drop c.beat).take k))
        (((s.tracks.get ⟨c.track, ht⟩).beats.drop c.beat).take k).length
      = c.delete_beats s k := by
  set B := (s.tracks.get ⟨c.track, ht⟩).beats with hB
  set old := (B.drop c.beat).take k with hold
  have htkj : (B.take c.beat).length = c.beat :=
    length_take_of_le B c.beat (by omega)
  have hlenold : old.length = k := by
    rw [hold]
    exact length_take_of_le _ _ (by rw [List.length_drop]; omega)
  unfold Cursor.delete_beats Cursor.insert_beats Cursor.updMeasures
  simp only [modifyTrack_comp]
  apply song_ops_eq s c.track _ _ ht
  dsimp only
  simp only [ite_true_eq, ite_false_eq, ite_bool_true, ite_bool_false]
  rw [← hB]
  rw [List.take_left' htkj, List.drop_left' htkj]
  have restore : B.take c.beat ++ old ++ B.drop (c.beat + k) = B := by
    rw [List.append_assoc, hold]
    exact take_slice_drop B c.beat k
  rw [restore, hlenold]

/-- Round-trip, insert paste-beats shape: splice the buffer in, splice
its span away, splice it in again. -/
theorem roundtrip_paste_beats_false (c : Cursor) (s : Song) (bs : List Beat)
    (ht : c.track < s.tracks.length)
    (hj : c.beat ≤ (s.tracks.get ⟨c.track, ht⟩).beats.length) :
    c.insert_beats
        (c.delete_beats (c.insert_beats s false bs) bs.length) false bs
      = c.insert_beats s false bs := by
  set B := (s.tracks.get ⟨c.track, ht⟩).beats with hB
  have htkj : (B.take c.beat).length = c.beat :=
    length_take_of_le B c.beat (by omega)
  have hpre : (B.take c.beat ++ bs).length = c.beat + bs.length := by
    rw [List.length_append, htkj]
  unfold Cursor.delete_beats Cursor.insert_beats Cursor.updMeasures
  simp only [modifyTrack_comp]
  apply song_ops_eq s c.track _ _ ht
  dsimp only
  simp only [ite_true_eq, ite_false_eq, ite_bool_true, ite_bool_false]
  rw [← hB]
  have e1 : (B.take c.beat ++ bs ++ B.drop c.beat).take c.beat = B.take c.beat := by
    rw [List.take_append_eq_append_take, List.take_append_eq_append_take,
      List.take_of_length_le (by omega : (B.take c.beat).length ≤ c.beat),
      htkj, Nat.sub_self, List.take_zero, List.append_nil,
      show c.beat - (B.take c.beat ++ bs).length = 0 from by omega,
      List.take_zero, List.append_nil]
  have e2 : (B.take c.beat ++ bs ++ B.drop c.beat).drop (c.beat + bs.length)
      = B.drop c.beat :=
    List.drop_left' hpre
  rw [e1, e2, List.take_append_drop]

/-- Round-trip, in-place paste-beats shape: remove the slot and splice
the buffer in; undo splices the buffer away and re-inserts the old beat. -/
theorem roundtrip_paste_beats_true (c : Cursor) (s : Song) (bs : List Beat)
    (b0 : Beat) (ht : c.track < s.tracks.length)
    (hjB : c.beat < (s.tracks.get ⟨c.track, ht⟩).beats.length) :
    c.insert_beats
        (c.insert_beat
          (c.delete_beats (c.insert_beats s true bs) bs.length) false b0)
        true bs
      = c.insert_beats s true bs := by
  set B := (s.tracks.get ⟨c.track, ht⟩).beats with hB
  have htkj : (B.take c.beat).length = c.beat :=
    length_take_of_le B c.beat (by omega)
  unfold Cursor.insert_beats Cursor.insert_beat Cursor.delete_beats
    Cursor.updMeasures
  simp only [modifyTrack_comp]
  apply song_ops_eq s c.track _ _ ht
  dsimp only
  simp only [ite_true_eq, ite_false_eq, ite_bool_true, ite_bool_false]
  rw [← hB]
  have h1 : (B.eraseIdx c.beat).take c.beat = B.take c.beat := by
    rw [List.eraseIdx_eq_take_drop_succ]
    exact List.take_left' htkj
  have h2 : (B.eraseIdx c.beat).drop c.beat = B.drop (c.beat + 1) := by
    rw [List.eraseIdx_eq_take_drop_succ]
    exact List.drop_left' htkj
  rw [h1, h2]
  have hpre : (B.take c.beat ++ bs).length = c.beat + bs.length := by
    rw [List.length_append, htkj]
  have e1 : (B.take c.beat ++ bs ++ B.drop (c.beat + 1)).take c.beat
      = B.take c.beat := by
    rw [List.take_append_eq_append_take, List.take_append_eq_append_take,
      List.take_of_length_le (by omega : (B.take c.beat).length ≤ c.beat),
      htkj, Nat.sub_self, List.take_zero, List.append_nil,
      show c.beat - (B.take c.beat ++ bs).length = 0 from by omega,
      List.take_zero, List.append_nil]
  have e2 : (B.take c.beat ++ bs ++ B.drop (c.beat + 1)).drop (c.beat + bs.length)
      = B.drop (c.beat + 1) :=
    List.drop_left' hpre
  rw [e1, e2]
  have h3 : (insertAt c.beat b0 (B.take c.beat ++ B.drop (c.beat + 1))).eraseIdx
      c.beat = B.take c.beat ++ B.drop (c.beat + 1) := by
    apply eraseIdx_insertAt
    rw [List.length_append, htkj]
    omega
  rw [h3]
  rw [List.take_left' htkj, List.drop_left' htkj]

/-- Round-trip, clear-beats shape: wipe the chords of a range, splice
the saved beats back (recomputing measures), wipe the range again.
Requires the fresh-measure-index invariant on the starting track. -/
theorem roundtrip_clear_beats (c : Cursor) (s : Song) (k : Nat)
    (ht : c.track < s.tracks.length)
    (hk : c.beat + k ≤ (s.tracks.get ⟨c.track, ht⟩).beats.length)
    (hwf : (s.tracks.get ⟨c.track, ht⟩).measure_i
      = update_measures (s.tracks.get ⟨c.track, ht⟩).beats) :
    c.clear_beats
        (c.replace_beats (c.clear_beats s k)
          (((s.tracks.get ⟨c.track, ht⟩).beats.drop c.beat).take k))
        k
      = c.clear_beats s k := by
  set B := (s.tracks.get ⟨c.track, ht⟩).beats with hB
  set old := (B.drop c.beat).take k with hold
  have htkj : (B.take c.beat).length = c.beat :=
    length_take_of_le B c.beat (by omega)
  have hlenold : old.length = k := by
    rw [hold]
    exact length_take_of_le _ _ (by rw [List.length_drop]; omega)
  unfold Cursor.clear_beats Cursor.replace_beats Cursor.updMeasures
  simp only [modifyTrack_comp]
  apply song_ops_eq s c.track _ _ ht
  dsimp only
  rw [← hB]
  rw [clearLoop_spec k B c.beat hk]
  have hmapold : ((B.drop c.beat).take k).map (fun b : Beat => { b with notes := [] })
      = old.map (fun b : Beat => { b with notes := [] }) := by rw [hold]
  have hmaplen : (old.map (fun b : Beat => { b with notes := [] })).length = k := by
    rw [List.length_map, hlenold]
  have hpre : (B.take c.beat ++ old.map (fun b : Beat => { b with notes := [] })).length
      = c.beat + k := by
    rw [List.length_append, htkj, hmaplen]
  have e1 : (B.take c.beat ++ old.map (fun b : Beat => { b with notes := [] })
        ++ B.drop (c.beat + k)).take c.beat = B.take c.beat := by
    rw [List.take_append_eq_append_take, List.take_append_eq_append_take,
      List.take_of_length_le (by omega : (B.take c.beat).length ≤ c.beat),
      htkj, Nat.sub_self, List.take_zero, List.append_nil, hpre,
      Nat.sub_eq_zero_of_le (by omega : c.beat ≤ c.beat + k),
      List.take_zero, List.append_nil]
  have e2 : (B.take c.beat ++ old.map (fun b : Beat => { b with notes := [] })
        ++ B.drop (c.beat + k)).drop (c.beat + old.length)
      = B.drop (c.beat + k) := by
    rw [hlenold]
    exact List.drop_left' hpre
  rw [hmapold, e1, e2]
  have restore : B.take c.beat ++ old ++ B.drop (c.beat + k) = B := by
    rw [List.append_assoc, hold]
    exact take_slice_drop B c.beat k
  rw [restore, ← hwf]
  rw [clearLoop_spec k B c.beat hk, hold]

/-- C5: for every edit mutator M over the Song with its recorded Action,
applying M, then un-applying the Action, then re-applying it leaves the
Song identical to the state immediately after M, the inverse of each
variant being computed directly from the old/new fields it carries.
Stated over in-bounds edits (editOK), Beats with unique string keys (the
Beat data invariant of the spec), and a track whose measure index is
fresh. -/
theorem c5_roundtrip (e : Edit) (c : Cursor) (s : Song)
    (hok : editOK e c s)
    (hnd : ((beatAt s c).notes.map Prod.fst).Nodup)
    (hwf : (trackOf s c).measure_i = update_measures (beatsOf s c)) :
    applyAction (record e c s) (unapplyAction (record e c s) (applyEdit e c s))
      = applyEdit e c s := by
  obtain ⟨ht, hb, hextra⟩ := hok
  have hMB : beatsOf s c = (s.tracks.get ⟨c.track, ht⟩).beats := by
    unfold beatsOf
    rw [trackOf_eq_get s c ht]
  have hjB : c.beat < (s.tracks.get ⟨c.track, ht⟩).beats.length := by
    rw [← hMB]
    exact hb
  have hbeatAt : beatAt s c = (s.tracks.get ⟨c.track, ht⟩).beats.get ⟨c.beat, hjB⟩ := by
    unfold beatAt
    rw [hMB]
    exact getD_eq_get _ _ _ hjB
  cases e with
  | setDuration d =>
    simp only [record, applyEdit, applyAction, unapplyAction]
    exact roundtrip_set_duration c s d (beatAt s c).dur ht
  | setNote n =>
    cases n with
    | some n =>
      simp only [record, applyEdit]
      cases hcl : c.clone_note s with
      | some o =>
        simp only [applyAction, unapplyAction]
        exact roundtrip_set_note_some c s n o ht
      | none =>
        simp only [applyAction, unapplyAction]
        have h0 : copyNoteList
            ((s.tracks.get ⟨c.track, ht⟩).beats.get ⟨c.beat, hjB⟩).notes c.string
            = none := by
          rw [← hbeatAt]
          exact hcl
        exact roundtrip_set_note_none c s n ht hjB h0
    | none =>
      simp only [record, applyEdit]
      cases hcl : c.clone_note s with
      | some o =>
        simp only [applyAction, unapplyAction]
        have hnd2 : (((s.tracks.get ⟨c.track, ht⟩).beats.get
            ⟨c.beat, hjB⟩).notes.map Prod.fst).Nodup := by
          rw [← hbeatAt]
          exact hnd
        exact roundtrip_clear_note_some c s o ht hjB hnd2
      | none =>
        simp only [applyAction, unapplyAction]
        have h0 : copyNoteList
            ((s.tracks.get ⟨c.track, ht⟩).beats.get ⟨c.beat, hjB⟩).notes c.string
            = none := by
          rw [← hbeatAt]
          exact hcl
        exact roundtrip_clear_note_none c s ht hjB h0
  | clearBeat =>
    simp only [record, applyEdit, applyAction, unapplyAction]
    exact roundtrip_clear_beat c s (c.clone_chord s) ht
  | clearBeats k =>
    have hk : c.beat + k ≤ (s.tracks.get ⟨c.track, ht⟩).beats.length := by
      rw [← hMB]
      exact hextra
    have hwf2 : (s.tracks.get ⟨c.track, ht⟩).measure_i
        = update_measures (s.tracks.get ⟨c.track, ht⟩).beats := by
      rw [← hMB, ← trackOf_eq_get s c ht]
      exact hwf
    have hslice : c.clone_beats_slice s k
        = ((s.tracks.get ⟨c.track, ht⟩).beats.drop c.beat).take k := by
      unfold Cursor.clone_beats_slice
      rw [hMB]
    have hL : (((s.tracks.get ⟨c.track, ht⟩).beats.drop c.beat).take k).length
        = k := by
      rw [List.length_take, List.length_drop]
      omega
    simp only [record, applyEdit, applyAction, unapplyAction]
    rw [hslice, hL]
    exact roundtrip_clear_beats c s k ht hk hwf2
  | deleteBeat =>
    simp only [record, applyEdit, applyAction, unapplyAction]
    have hcb : c.clone_beat s
        = (s.tracks.get ⟨c.track, ht⟩).beats.get ⟨c.beat, hjB⟩ := hbeatAt
    rw [hcb]
    exact roundtrip_delete_beat c s ht hjB
  | deleteBeats k =>
    have hk : c.beat + k ≤ (s.tracks.get ⟨c.track, ht⟩).beats.length := by
      rw [← hMB]
      exact hextra
    have hslice : c.clone_beats_slice s k
        = ((s.tracks.get ⟨c.track, ht⟩).beats.drop c.beat).take k := by
      unfold Cursor.clone_beats_slice
      rw [hMB]
    simp only [record, applyEdit, applyAction, unapplyAction]
    rw [hslice]
    exact roundtrip_delete_beats c s k ht hk
  | pasteNote n =>
    simp only [record, applyEdit]
    cases hcl : c.clone_note s with
    | some o =>
      simp only [applyAction, unapplyAction]
      exact roundtrip_set_note_some c s n o ht
    | none =>
      simp only [applyAction, unapplyAction]
      have h0 : copyNoteList
          ((s.tracks.get ⟨c.track, ht⟩).beats.get ⟨c.beat, hjB⟩).notes c.string
          = none := by
        rw [← hbeatAt]
        exact hcl
      exact roundtrip_set_note_none c s n ht hjB h0
  | pasteBeat ip b =>
    cases ip with
    | false =>
      simp only [record, applyEdit, ite_bool_false]
      simp only [applyAction, unapplyAction, Option.isSome_none]
      exact roundtrip_paste_beat_false c s b ht (Nat.le_of_lt hjB)
    | true =>
      simp only [record, applyEdit, ite_bool_true]
      simp only [applyAction, unapplyAction, Option.isSome_some]
      exact roundtrip_paste_beat_true c s b (c.clone_beat s) ht
  | pasteBeats ip bs =>
    cases ip with
    | false =>
      simp only [record, applyEdit, ite_bool_false]
      simp only [applyAction, unapplyAction, Option.isSome_none]
      exact roundtrip_paste_beats_false c s bs ht (Nat.le_of_lt hjB)
    | true =>
      simp only [record, applyEdit, ite_bool_true]
      simp only [applyAction, unapplyAction, Option.isSome_some]
      exact roundtrip_paste_beats_true c s bs (c.clone_beat s) ht hjB

/-- A one-track song with a fresh measure index, used to instantiate the
round-trip law. -/
def c5Beats : List Beat := [⟨⟨1, 1⟩, [(2, Note.fret 5)]⟩]

def c5Song : Song := ⟨[⟨6, c5Beats, update_measures c5Beats⟩]⟩

def c5Cursor : Cursor := ⟨0, 0, 0, 2⟩

/-- C5 witness: the round-trip law at a concrete overwrite edit. -/
theorem c5_roundtrip_witness :
    editOK (Edit.setNote (some (Note.fret 7))) c5Cursor c5Song
      ∧ applyAction (record (Edit.setNote (some (Note.fret 7))) c5Cursor c5Song)
          (unapplyAction (record (Edit.setNote (some (Note.fret 7))) c5Cursor c5Song)
            (applyEdit (Edit.setNote (some (Note.fret 7))) c5Cursor c5Song))
        = applyEdit (Edit.setNote (some (Note.fret 7))) c5Cursor c5Song :=
  ⟨⟨by decide, by decide, trivial⟩,
    c5_roundtrip (Edit.setNote (some (Note.fret 7))) c5Cursor c5Song
      ⟨by decide, by decide, trivial⟩ (by decide) (by decide)⟩

end Tab
